import Mathlib

/-!
Verification of the maptrans library (map-to-map translation engine).

The Go source represents records as `map[string]interface{}` with
dynamically typed values, descriptors as `map[string]interface{}` whose
values are either a rename string or a `Description` struct, and reports
failures through Go's `(value, error)` return pairs.  The embedding below
mirrors that structure: records are association lists with unique keys,
values are a tagged union, descriptors are association lists of entries,
and fallible operations return `Except`.  Go map iteration order is
unspecified; the embedding iterates association lists in list order,
which realises one admissible iteration order.
-/

set_option linter.unusedVariables false

namespace Maptrans

mutual
/-- Dynamically typed values stored in a `map[string]interface{}`:
null, booleans, integers, strings, nested records and arrays.
`record` models a nested `map[string]interface{}`; `array` models a slice
of values (such as `[]interface{}` or `[]map[string]interface{}`). -/
inductive Value where
  | null : Value
  | bool (b : Bool) : Value
  | int (n : Int) : Value
  | str (s : String) : Value
  | record (fs : Fields) : Value
  | array (vs : VList) : Value

/-- Association list of string keys and values modelling a Go
`map[string]interface{}` with unique keys. -/
inductive Fields where
  | nil : Fields
  | cons (key : String) (val : Value) (tail : Fields) : Fields

/-- List of dynamically typed values, modelling a Go slice. -/
inductive VList where
  | nil : VList
  | cons (head : Value) (tail : VList) : VList
end

/-- List-spine induction principle for `Fields` (the `induction` tactic
cannot use the mutual recursor directly). -/
@[induction_eliminator]
theorem Fields.fieldsInd {P : Fields → Prop} (nil : P .nil)
    (cons : ∀ k v t, P t → P (.cons k v t)) : ∀ fs, P fs
  | .nil => nil
  | .cons k v t => cons k v t (Fields.fieldsInd nil cons t)

/-- List-spine induction principle for `VList`. -/
@[induction_eliminator]
theorem VList.vlistInd {P : VList → Prop} (nil : P .nil)
    (cons : ∀ v t, P t → P (.cons v t)) : ∀ vs, P vs
  | .nil => nil
  | .cons v t => cons v t (VList.vlistInd nil cons t)

/-- Go map lookup `v, ok := m[k]`: first binding of the key. -/
def lookupF : Fields → String → Option Value
  | .nil, _ => none
  | .cons k v t, k' => if k = k' then some v else lookupF t k'

/-- Go map membership `_, ok := m[k]`. -/
def memF (fs : Fields) (k : String) : Bool :=
  (lookupF fs k).isSome

/-- Go map assignment `m[k] = v`: replaces the binding if the key is
present, appends a new binding otherwise. -/
def setF : Fields → String → Value → Fields
  | .nil, k, v => .cons k v .nil
  | .cons k' v' t, k, v =>
    if k' = k then .cons k v t else .cons k' v' (setF t k v)

/-- Number of elements of a value list (Go `len` of a slice). -/
def vlen : VList → Nat
  | .nil => 0
  | .cons _ t => vlen t + 1

/-- Element of a value list at an index (Go slice indexing). -/
def vnth : VList → Nat → Option Value
  | .nil, _ => none
  | .cons v _, 0 => some v
  | .cons _ t, n + 1 => vnth t n

/-- Error taxonomy of the library: `internal` models `InternalError`
(maptrans.go lines 74-85), `missingAttribute` models
`MissingAttributeError` (lines 89-100), `invalidProperty` models
`InvalidPropertyError` (lines 104-116), and `plain` models an ordinary
Go error built with `fmt.Errorf` or `errors.New`. -/
inductive MErr where
  | internal (reason : String) : MErr
  | missingAttribute (name : String) : MErr
  | invalidProperty (name : String) (reason : String) : MErr
  | plain (msg : String) : MErr

/-- Rendering of an error as a string, mirroring the Go `Error()`
methods of the three custom error types (quotes written as \x27). -/
def MErr.message : MErr → String
  | .internal r => "internal error: " ++ r
  | .missingAttribute n => "missing mandatory attribute \x27" ++ n ++ "\x27"
  | .invalidProperty n r => "property \x27" ++ n ++ "\x27 is invalid: " ++ r
  | .plain m => m

/-- The `TranslationType` enum (maptrans.go lines 16-31). `unknown`
stands for any integer outside the five declared constants, which the
`Translate` switch rejects in its `default` branch. -/
inductive TranslationType where
  | custom : TranslationType
  | map : TranslationType
  | mapArray : TranslationType
  | modify : TranslationType
  | insert : TranslationType
  | unknown : TranslationType

/-- Decidable equality for `TranslationType`. -/
instance : DecidableEq TranslationType := fun a b => by
  cases a <;> cases b <;> first
    | exact isTrue rfl
    | exact isFalse (by intro h; exact TranslationType.noConfusion h)

/-- Abstraction of Go's `%T` formatting verb on a dynamic value.  The
exact strings never matter for the claims; they only feed error
messages. -/
def vtype : Value → String
  | .null => "<nil>"
  | .bool _ => "bool"
  | .int _ => "int"
  | .str _ => "string"
  | .record _ => "map[string]interface \x7b\x7d"
  | .array _ => "[]interface \x7b\x7d"

/-- Abstraction of Go's `%v` formatting verb on a dynamic value
(shallow: compound values are rendered opaquely; the exact strings never
matter for the claims). -/
def vrepr : Value → String
  | .null => "<nil>"
  | .bool b => cond b "true" "false"
  | .int n => toString n
  | .str s => s
  | .record _ => "map[...]"
  | .array _ => "[...]"

/-- Abstraction of Go's `%v` formatting verb on a map (shallow). -/
def frepr : Fields → String
  | _ => "map[...]"

/-- Abstraction of Go's `%v` formatting verb on a `TranslationType`
value (Go prints the underlying integer). -/
def trepr : TranslationType → String
  | .custom => "0"
  | .map => "1"
  | .mapArray => "2"
  | .modify => "3"
  | .insert => "4"
  | .unknown => "5"

mutual
/-- One entry of a translation description map (the Go descriptor value
for one source key): a rename string, a `Description` struct, or any
other value, which the engine rejects with an internal error
(maptrans.go lines 141-147, 166-178, 249-255). -/
inductive DEntry where
  | rename (target : String) : DEntry
  | rule (md : Description) : DEntry
  | other (repr : String) : DEntry

/-- The `Description` struct (maptrans.go lines 61-69).  Function fields
that may be nil in Go are `Option`s here.  `ModFunc` mutates the
destination map in place in Go; here it returns the updated map. -/
inductive Description where
  | mk (insertFunc : Option (Fields → Fields → String → Except MErr Value))
       (mandatory : Bool)
       (mapFunc : Option (Value → Except MErr Value))
       (modFunc : Option (Fields → Fields → Value → Except MErr Fields))
       (subTranslation : Option Descr)
       (targetName : String)
       (type : TranslationType) : Description

/-- Association list of source keys and descriptor entries modelling the
Go description map `map[string]interface{}`.  A nil description map is
modelled as `none : Option Descr`. -/
inductive Descr where
  | nil : Descr
  | cons (key : String) (entry : DEntry) (tail : Descr) : Descr
end

/-- List-spine induction principle for `Descr`. -/
@[induction_eliminator]
theorem Descr.descrInd {P : Descr → Prop} (nil : P .nil)
    (cons : ∀ k e t, P t → P (.cons k e t)) : ∀ d, P d
  | .nil => nil
  | .cons k e t => cons k e t (Descr.descrInd nil cons t)

/-- Projection for the `InsertFunc` field. -/
def Description.insertFunc :
    Description → Option (Fields → Fields → String → Except MErr Value)
  | .mk f _ _ _ _ _ _ => f

/-- Projection for the `Mandatory` field. -/
def Description.mandatory : Description → Bool
  | .mk _ m _ _ _ _ _ => m

/-- Projection for the `MapFunc` field. -/
def Description.mapFunc : Description → Option (Value → Except MErr Value)
  | .mk _ _ f _ _ _ _ => f

/-- Projection for the `ModFunc` field. -/
def Description.modFunc :
    Description → Option (Fields → Fields → Value → Except MErr Fields)
  | .mk _ _ _ f _ _ _ => f

/-- Projection for the `SubTranslation` field. -/
def Description.subTranslation : Description → Option Descr
  | .mk _ _ _ _ s _ _ => s

/-- Projection for the `TargetName` field. -/
def Description.targetName : Description → String
  | .mk _ _ _ _ _ t _ => t

/-- Projection for the `Type` field. -/
def Description.type : Description → TranslationType
  | .mk _ _ _ _ _ _ ty => ty

/-- Description map lookup on a non-nil map. -/
def lookupDescr : Descr → String → Option DEntry
  | .nil, _ => none
  | .cons k e t, k' => if k = k' then some e else lookupDescr t k'

/-- Description map lookup; a nil Go map yields no hits. -/
def lookupD : Option Descr → String → Option DEntry
  | none, _ => none
  | some d, k => lookupDescr d k

/-- Predicate on characters modelling Go's `unicode.IsSpace` on the
inputs the library meets (ASCII whitespace plus NEL and NBSP; the full
Unicode table is irrelevant to the claims). -/
def goIsSpace (c : Char) : Bool :=
  c = ' ' || c = '\t' || c = '\n' || c = '\x0b' || c = '\x0c' || c = '\r' ||
    c = '\u0085' || c = '\u00A0'

/-- Model of Go's `strings.TrimSpace`: drop leading and trailing
whitespace characters. -/
def goTrim (s : String) : String :=
  String.mk (((s.data.dropWhile goIsSpace).reverse.dropWhile goIsSpace).reverse)

/-- The `StringMap` value mapper (maptrans.go lines 289-294): trim a
string, reject any non-string value. -/
def StringMap : Value → Except MErr Value
  | .str s => .ok (.str (goTrim s))
  | v => .error (.plain ("invalid type " ++ vtype v ++ " for " ++ vrepr v))

/-- The `IDMap` value mapper (maptrans.go lines 284-286): identity. -/
def IDMap : Value → Except MErr Value
  | v => .ok v

/-- One hexadecimal digit, as in the `validUUID` regular expression
character class `[0-9a-fA-F]` (maptrans.go line 121). -/
def isHexDigit (c : Char) : Bool :=
  ('0' ≤ c && c ≤ '9') || ('a' ≤ c && c ≤ 'f') || ('A' ≤ c && c ≤ 'F')

/-- Consume exactly `n` hexadecimal digits from the front of a character
list, returning the remainder, as the regexp engine does for a
`[0-9a-fA-F]\x7bn\x7d` atom. -/
def hexRun : Nat → List Char → Option (List Char)
  | 0, cs => some cs
  | _ + 1, [] => none
  | n + 1, c :: cs => if isHexDigit c then hexRun n cs else none

/-- Model of `validUUID.MatchString` (maptrans.go line 121): the regular
expression is anchored at the start but not at the end, so it matches
exactly when the string STARTS WITH the 8-4-4-4-12 hyphenated
hexadecimal form; trailing characters are ignored. -/
def validUUIDMatch (cs : List Char) : Bool :=
  match hexRun 8 cs with
  | some ('-' :: cs1) =>
    match hexRun 4 cs1 with
    | some ('-' :: cs2) =>
      match hexRun 4 cs2 with
      | some ('-' :: cs3) =>
        match hexRun 4 cs3 with
        | some ('-' :: cs4) => (hexRun 12 cs4).isSome
        | _ => false
      | _ => false
    | _ => false
  | _ => false

/-- The `UUIDMap` value mapper (maptrans.go lines 414-424): trim the
string, test it against `validUUID`, return the trimmed string on
success.  On a non-string input Go formats the zero value of the failed
assertion, producing the message " is not a string". -/
def UUIDMap : Value → Except MErr Value
  | .str s =>
    let t := goTrim s
    if validUUIDMatch t.data then .ok (.str t)
    else .error (.plain (t ++ " is not a valid UUID"))
  | _ => .error (.plain " is not a string")

/-- Result of Go's `mapstructure.Decode(value, &[]map[string]interface{})`:
the sequence-of-records coercion succeeds exactly on an array all of
whose elements are records.  Modelled from the spec: the decoder is the
external "Sequence Coercion" capability (spec section 6), required to
fail cleanly on non-array-like input. -/
def allRecords : VList → Bool
  | .nil => true
  | .cons (.record _) t => allRecords t
  | .cons _ _ => false

/-- Message of a failed sequence-of-records coercion (the text of the
mapstructure error is opaque to this model). -/
def decodeErrMsg : String := "sequence of records decode failed"

/-- Phase 1 of `Translate` (maptrans.go lines 139-154): scan the
description for mandatory rules whose source key is absent.  String
entries are never mandatory; a non-Description entry is an internal
error; the first mandatory rule whose key is missing from the source
aborts with a `MissingAttributeError`. -/
def mandatoryCheck (src : Fields) : Descr → Option MErr
  | .nil => none
  | .cons _ (.rename _) t => mandatoryCheck src t
  | .cons _ (.other r) _ => some (.internal (r ++ " is not Description"))
  | .cons k (.rule md) t =>
    if md.mandatory && !(memF src k) then some (.missingAttribute k)
    else mandatoryCheck src t

/-- Phase 3 of `Translate` (maptrans.go lines 248-278): walk the
description, and for every `InsertTranslation` rule whose `TargetName`
is not yet present in the result, store the value produced by
`InsertFunc(src, result, attr)` under `TargetName`.  An `InsertFunc`
failure propagates unwrapped; note that this phase uses `TargetName`
as written, without defaulting it to the source key. -/
def insertPhase (src : Fields) : Descr → Fields → Except (Option Fields × MErr) Fields
  | .nil, result => .ok result
  | .cons _ (.rename _) t, result => insertPhase src t result
  | .cons _ (.other r) _, _ => .error (none, .internal (r ++ " is not a Description"))
  | .cons attr (.rule md) t, result =>
    if md.type = .insert then
      match md.insertFunc with
      | none => .error (none, .internal ("missing translation func for " ++ attr))
      | some f =>
        if memF result md.targetName then insertPhase src t result
        else
          match f src result attr with
          | .error e => .error (none, e)
          | .ok v => insertPhase src t (setF result md.targetName v)
    else insertPhase src t result

mutual
/-- Phase 2 of `Translate` (maptrans.go lines 158-245), iterating the
source fields in list order with `whole` the full source map (passed to
`ModFunc`), `d` the description, and `acc` the result built so far.  A
failure carries the Go return pair: the rename-string branch returns
the partial `result` map next to the error (line 169), every other
branch returns nil.  The `MapTranslation` and `MapArrayTranslation`
branches inline the recursive `Translate` call (all three phases). -/
def translateFields (whole : Fields) (d : Descr) :
    Fields → Fields → Except (Option Fields × MErr) Fields
  | .nil, acc => .ok acc
  | .cons attr value rest, acc =>
    match lookupDescr d attr with
    | none => translateFields whole d rest acc
    | some (.rename target) =>
      match StringMap value with
      | .error e => .error (some acc, .invalidProperty attr e.message)
      | .ok dstStr => translateFields whole d rest (setF acc target dstStr)
    | some (.other r) => .error (none, .internal (r ++ " is not a Description"))
    | some (.rule md) =>
      let tname := if md.targetName = "" then attr else md.targetName
      match md.type with
      | .custom =>
        match md.mapFunc with
        | none => .error (none, .internal ("missing translation func for " ++ attr))
        | some f =>
          match f value with
          | .error e => .error (none, .invalidProperty attr e.message)
          | .ok dstV => translateFields whole d rest (setF acc tname dstV)
      | .map =>
        match value with
        | .record srcMap =>
          match md.subTranslation with
          | none => translateFields whole d rest (setF acc tname (.record srcMap))
          | some sd =>
            match mandatoryCheck srcMap sd with
            | some e => .error (none, e)
            | none =>
              match translateFields srcMap sd srcMap .nil with
              | .error p => .error (none, p.2)
              | .ok r2 =>
                match insertPhase srcMap sd r2 with
                | .error p => .error (none, p.2)
                | .ok tr => translateFields whole d rest (setF acc tname (.record tr))
        | v =>
          .error (none, .internal ("invalid type for " ++ vrepr v ++ ": " ++ vtype v))
      | .mapArray =>
        match value with
        | .array vs =>
          if allRecords vs then
            match translateArrayVals vs md.subTranslation with
            | .error e => .error (none, e)
            | .ok out => translateFields whole d rest (setF acc tname (.array out))
          else .error (none, .internal decodeErrMsg)
        | _ => .error (none, .internal decodeErrMsg)
      | .modify =>
        match md.modFunc with
        | none => .error (none, .internal ("missing translation func for " ++ attr))
        | some f =>
          match f whole acc value with
          | .error e => .error (none, .invalidProperty attr e.message)
          | .ok acc2 => translateFields whole d rest acc2
      | .insert => translateFields whole d rest acc
      | .unknown => .error (none, .internal "Invalid Translation type")
termination_by structural fs acc => fs

/-- Element loop of the `MapArrayTranslation` branch (maptrans.go lines
219-227): translate each decoded record with the same sub-description,
preserving order; the first failing element aborts with its error.  The
non-record case is unreachable behind the `allRecords` guard. -/
def translateArrayVals (vs : VList) (sub : Option Descr) : Except MErr VList :=
  match vs with
  | .nil => .ok .nil
  | .cons (.record r) t =>
    match sub with
    | none =>
      match translateArrayVals t sub with
      | .error e => .error e
      | .ok ts => .ok (.cons (.record r) ts)
    | some sd =>
      match mandatoryCheck r sd with
      | some e => .error e
      | none =>
        match translateFields r sd r .nil with
        | .error p => .error p.2
        | .ok r2 =>
          match insertPhase r sd r2 with
          | .error p => .error p.2
          | .ok tr =>
            match translateArrayVals t sub with
            | .error e => .error e
            | .ok ts => .ok (.cons (.record tr) ts)
  | .cons _ _ => .error (.internal decodeErrMsg)
termination_by structural vs
end

/-- The `Translate` entry point in `Except` form (maptrans.go lines
131-280): nil description means no translation; otherwise run the
mandatory check, the per-field translation and the insert phase.  A
failure carries the Go `(result, error)` pair with `none` standing for
a nil result map. -/
def translate (src : Fields) (descr : Option Descr) :
    Except (Option Fields × MErr) Fields :=
  match descr with
  | none => .ok src
  | some d =>
    match mandatoryCheck src d with
    | some e => .error (none, e)
    | none =>
      match translateFields src d src .nil with
      | .error p => .error p
      | .ok result => insertPhase src d result

/-- The `Translate` entry point in Go pair form: the returned map and
the returned error, either of which may be nil. -/
def Translate (src : Fields) (descr : Option Descr) :
    Option Fields × Option MErr :=
  match translate src descr with
  | .ok r => (some r, none)
  | .error (r, e) => (r, some e)

mutual
/-- Main loop of `IsSimilar` (maptrans.go lines 443-542), walking the
source fields in list order.  A rename-string entry requires the source
value and `dst[target]` to be equal strings.  A `MapTranslation` rule
requires a record on both sides and recurses; a `MapArrayTranslation`
rule decodes both sides to sequences of records, requires equal
lengths, and compares pairwise by index.  Any other rule kind is an
unsupported translation type.  Note that `IsSimilar` uses `TargetName`
as written, without defaulting it to the source key. -/
def isSimilarFields (fields : Fields) (dst : Fields) (d : Option Descr) :
    Bool × Option MErr :=
  match fields with
  | .nil => (true, none)
  | .cons k vSrc rest =>
    match lookupD d k with
    | none => isSimilarFields rest dst d
    | some (.rename target) =>
      match vSrc with
      | .str srcStr =>
        match lookupF dst target with
        | some (.str dstStr) =>
          if srcStr = dstStr then isSimilarFields rest dst d
          else (false, some (.plain
            ("Values " ++ srcStr ++ " and " ++ dstStr ++ " don\x27t match")))
        | _ => (false, some (.internal ("Missing value for " ++ target)))
      | _ => (false, some (.internal ("Invalid description value " ++ vrepr vSrc)))
    | some (.other r) => (false, some (.internal ("invalid description " ++ r)))
    | some (.rule md) =>
      match md.type with
      | .map =>
        match vSrc with
        | .record srcMap =>
          match lookupF dst md.targetName with
          | none => (false, some (.plain
              ("Missing value for " ++ md.targetName ++ " in " ++ frepr dst)))
          | some dstMapVal =>
            match dstMapVal with
            | .record dstMap =>
              match isSimilarFields srcMap dstMap md.subTranslation with
              | (false, err) => (false, err)
              | (true, _) => isSimilarFields rest dst d
            | v => (false, some (.plain
                ("Invalid Type for " ++ md.targetName ++ ": " ++ vtype v)))
        | v => (false, some (.plain ("Invalid source object " ++ vrepr v)))
      | .mapArray =>
        match vSrc with
        | .array svs =>
          if allRecords svs then
            match lookupF dst md.targetName with
            | none => (false, some (.plain
                ("Missing value for " ++ md.targetName ++ " in " ++ frepr dst)))
            | some dstVal =>
              match dstVal with
              | .array dvs =>
                if allRecords dvs then
                  if vlen svs = vlen dvs then
                    match isSimilarArr svs dvs md.subTranslation with
                    | (false, err) => (false, err)
                    | (true, _) => isSimilarFields rest dst d
                  else (false, some (.plain
                    ("Source and destination length: " ++ toString (vlen svs)
                      ++ "!= " ++ toString (vlen dvs))))
                else (false, some (.plain
                  ("Invalid destination object " ++ vrepr dstVal)))
              | v => (false, some (.plain ("Invalid destination object " ++ vrepr v)))
          else (false, some (.plain
            ("Invalid source object " ++ vrepr vSrc ++ ": " ++ decodeErrMsg)))
        | v => (false, some (.plain
            ("Invalid source object " ++ vrepr v ++ ": " ++ decodeErrMsg)))
      | ty => (false, some (.plain ("Unsupported translation type " ++ trepr ty)))
termination_by structural fields

/-- Pairwise element comparison of the `MapArrayTranslation` branch of
`IsSimilar` (maptrans.go lines 531-537).  The non-record and
length-mismatch cases are unreachable behind the `allRecords` and
length guards. -/
def isSimilarArr (svs dvs : VList) (sub : Option Descr) : Bool × Option MErr :=
  match svs, dvs with
  | .nil, _ => (true, none)
  | .cons (.record sr) st, .cons (.record dr) dt =>
    match isSimilarFields sr dr sub with
    | (false, err) => (false, err)
    | (true, _) => isSimilarArr st dt sub
  | _, _ => (false, some (.internal decodeErrMsg))
termination_by structural svs
end

/-- The `IsSimilar` entry point (maptrans.go lines 440-544) in Go pair
form: whether `dst` matches `src` according to the description, plus
the error describing the first mismatch. -/
def IsSimilar (src dst : Fields) (d : Option Descr) : Bool × Option MErr :=
  isSimilarFields src dst d

/-- Sanity scenario from the spec: unknown source fields are dropped. -/
theorem scenario_rename : Translate (.cons "A1" (.str "foo") (.cons "C1" (.str "missing") .nil))
    (some (.cons "A1" (.rename "a1") .nil))
    = (some (.cons "a1" (.str "foo") .nil), none) := rfl

/-- Sanity scenario from the spec: nested translation. -/
theorem scenario_nested : Translate
    (.cons "E1" (.record (.cons "E11" (.str "x") (.cons "E12" (.str "y") .nil))) .nil)
    (some (.cons "E1" (.rule (.mk none false none none
      (some (.cons "E11" (.rename "e11") (.cons "E12" (.rename "e12") .nil)))
      "e1" .map)) .nil))
    = (some (.cons "e1" (.record (.cons "e11" (.str "x") (.cons "e12" (.str "y") .nil))) .nil), none) := rfl

/-- Sanity scenario from the tests: truncated UUID fails. -/
theorem scenario_uuid_truncated : UUIDMap (.str "cb89a4a9-7a7e-59ea-a0f2")
    = .error (.plain "cb89a4a9-7a7e-59ea-a0f2 is not a valid UUID") := rfl

/-- Sanity scenario from the tests: well-formed UUID succeeds. -/
theorem scenario_uuid_ok : UUIDMap (.str "fc62e0eb-7969-5c24-b83f-955bf7f4ad0b")
    = .ok (.str "fc62e0eb-7969-5c24-b83f-955bf7f4ad0b") := rfl

/-- Sanity check: the default string normalization trims whitespace. -/
theorem scenario_trim : StringMap (.str "  ab c  ") = .ok (.str "ab c") := rfl

/-- Membership of a key/entry pair in a description map. -/
def descrMem : Descr → String → DEntry → Prop
  | .nil, _, _ => False
  | .cons k e t, k', e' => (k = k' ∧ e = e') ∨ descrMem t k' e'

/-- A description map all of whose entries are rename strings or
`Description` structs, as the descriptor data model prescribes (no
entry of any other dynamic type). -/
def noJunk : Descr → Bool
  | .nil => true
  | .cons _ (.other _) _ => false
  | .cons _ _ t => noJunk t

/-- C9: for every record `r`, `Translate(r, nil)` returns `r` unchanged
with no error: a nil description map is the no-translation sentinel
(maptrans.go lines 133-136). -/
theorem translate_nil_identity : ∀ r : Fields, Translate r none = (some r, none) :=
  fun _ => rfl

/-- Walking any field list against a nil description map skips every
field and accepts. -/
theorem isSimilarFields_none : ∀ fs dst : Fields,
    isSimilarFields fs dst none = (true, none) := by
  intro fs dst
  induction fs with
  | nil => rfl
  | cons k v t ih => exact ih

/-- C10: `IsSimilar(src, dst, nil)` returns true with no error for all
records: every source key misses the nil description map and is
skipped, so the verifier vacuously accepts any pair of records. -/
theorem isSimilar_nil_descr :
    ∀ src dst : Fields, IsSimilar src dst none = (true, none) :=
  fun src dst => isSimilarFields_none src dst

/-- Any result of the mandatory-field scan aborts `Translate` with that
error and a nil result map. -/
theorem translate_of_mandatoryCheck {src : Fields} {d : Descr} {e : MErr}
    (h : mandatoryCheck src d = some e) :
    Translate src (some d) = (none, some e) := by
  simp [Translate, translate, h]

/-- On a junk-free description map, the presence of a mandatory rule
whose key is absent from the source makes the mandatory scan fail with
a missing-attribute error naming a (the first) such key. -/
theorem mandatoryCheck_fails {d : Descr} {src : Fields} {k : String}
    {md : Description} (hwf : noJunk d = true)
    (hmem : descrMem d k (.rule md)) (hman : md.mandatory = true)
    (habs : memF src k = false) :
    ∃ k' md', descrMem d k' (.rule md') ∧ md'.mandatory = true ∧
      memF src k' = false ∧ mandatoryCheck src d = some (.missingAttribute k') := by
  induction d with
  | nil => exact absurd hmem id
  | cons k0 e0 t ih =>
    cases e0 with
    | rename target =>
      have hmem' : descrMem t k (.rule md) := by
        rcases hmem with ⟨_, h⟩ | h
        · exact absurd h (by intro hh; exact DEntry.noConfusion hh)
        · exact h
      obtain ⟨k', md', h1, h2, h3, h4⟩ := ih hwf hmem'
      exact ⟨k', md', Or.inr h1, h2, h3, h4⟩
    | other r => exact absurd hwf (by simp [noJunk])
    | rule md0 =>
      by_cases hc : (md0.mandatory && !(memF src k0)) = true
      · rcases (Bool.and_eq_true _ _).mp hc with ⟨hm0, hn0⟩
        refine ⟨k0, md0, Or.inl ⟨rfl, rfl⟩, hm0, ?_, ?_⟩
        · cases habs0 : memF src k0
          · rfl
          · rw [habs0] at hn0; exact absurd hn0 (by decide)
        · simp [mandatoryCheck, hc]
      · have hwf' : noJunk t = true := by simpa [noJunk] using hwf
        have hmem' : descrMem t k (.rule md) := by
          rcases hmem with ⟨hk, he⟩ | h
          · exfalso
            have : md0 = md := by
              have := DEntry.rule.inj he
              exact this
            subst hk
            rw [this, hman, habs] at hc
            exact hc rfl
          · exact h
        obtain ⟨k', md', h1, h2, h3, h4⟩ := ih hwf' hmem'
        refine ⟨k', md', Or.inr h1, h2, h3, ?_⟩
        simp [mandatoryCheck, hc, h4]

/-- C2: if any rule of a (junk-free) description map is mandatory and
its source key is absent, `Translate` fails with a `MissingAttribute`
error naming the first such key, before any field is translated and
regardless of every field value, and returns a nil result map
(maptrans.go lines 138-154). -/
theorem translate_missing_mandatory (d : Descr) (src : Fields) (k : String)
    (md : Description) (hwf : noJunk d = true)
    (hmem : descrMem d k (.rule md)) (hman : md.mandatory = true)
    (habs : memF src k = false) :
    ∃ k' md', descrMem d k' (.rule md') ∧ md'.mandatory = true ∧
      memF src k' = false ∧
      Translate src (some d) = (none, some (.missingAttribute k')) := by
  obtain ⟨k', md', h1, h2, h3, h4⟩ := mandatoryCheck_fails hwf hmem hman habs
  exact ⟨k', md', h1, h2, h3, translate_of_mandatoryCheck h4⟩

/-- Witness for C2 at a concrete input: one mandatory custom rule for
the key "A", empty source record, another translatable field present. -/
theorem translate_missing_mandatory_witness :
    ∃ k' md', descrMem
        (.cons "X" (.rename "x")
          (.cons "A" (.rule (.mk none true (some IDMap) none none "a" .custom)) .nil))
        k' (.rule md') ∧ md'.mandatory = true ∧
      memF (.cons "X" (.str "x") .nil) k' = false ∧
      Translate (.cons "X" (.str "x") .nil)
        (some (.cons "X" (.rename "x")
          (.cons "A" (.rule (.mk none true (some IDMap) none none "a" .custom)) .nil)))
        = (none, some (.missingAttribute k')) :=
  translate_missing_mandatory _ _ "A" (.mk none true (some IDMap) none none "a" .custom)
    rfl (Or.inr (Or.inl ⟨rfl, rfl⟩)) rfl rfl

/-- Specification-side reading of the canonical 8-4-4-4-12 hyphenated
hexadecimal UUID form: the character list starts with five hyphen
separated hexadecimal groups of lengths 8, 4, 4, 4 and 12, followed by
arbitrary trailing characters. -/
def CanonicalUUIDStart (cs : List Char) : Prop :=
  ∃ a b c d e rest : List Char,
    cs = a ++ '-' :: (b ++ '-' :: (c ++ '-' :: (d ++ '-' :: (e ++ rest)))) ∧
    a.length = 8 ∧ b.length = 4 ∧ c.length = 4 ∧ d.length = 4 ∧
    e.length = 12 ∧
    (∀ ch ∈ a ++ b ++ c ++ d ++ e, isHexDigit ch = true)

/-- Characterisation of `hexRun`: it succeeds exactly by consuming a
run of `n` hexadecimal digits. -/
theorem hexRun_eq_some : ∀ (n : Nat) (cs cs' : List Char),
    hexRun n cs = some cs' ↔
      ∃ pre, cs = pre ++ cs' ∧ pre.length = n ∧ ∀ c ∈ pre, isHexDigit c = true := by
  intro n
  induction n with
  | zero =>
    intro cs cs'
    constructor
    · intro h
      refine ⟨[], ?_, rfl, by simp⟩
      simpa using Option.some.inj h
    · rintro ⟨pre, hcs, hlen, _⟩
      rw [List.length_eq_zero] at hlen
      subst hlen
      simpa [hexRun] using hcs
  | succ n ih =>
    intro cs cs'
    cases cs with
    | nil =>
      simp only [hexRun]
      constructor
      · intro h; exact absurd h (by simp)
      · rintro ⟨pre, hcs, hlen, _⟩
        cases pre with
        | nil => simp at hlen
        | cons p pt => exact absurd hcs.symm (by simp)
    | cons c ct =>
      by_cases hc : isHexDigit c = true
      · rw [show hexRun (n + 1) (c :: ct) = hexRun n ct by simp [hexRun, hc]]
        rw [ih ct cs']
        constructor
        · rintro ⟨pre, hct, hlen, hhex⟩
          refine ⟨c :: pre, by simp [hct], by simp [hlen], ?_⟩
          intro x hx
          rcases List.mem_cons.mp hx with h | h
          · subst h; exact hc
          · exact hhex x h
        · rintro ⟨pre, hcs, hlen, hhex⟩
          cases pre with
          | nil => simp at hlen
          | cons p pt =>
            have hp : p = c ∧ pt ++ cs' = ct := by
              constructor
              · exact (List.cons.inj hcs.symm).1
              · exact (List.cons.inj hcs.symm).2
            refine ⟨pt, hp.2.symm, by simpa using hlen, ?_⟩
            intro x hx
            exact hhex x (List.mem_cons_of_mem p hx)
      · rw [show hexRun (n + 1) (c :: ct) = none by simp [hexRun, hc]]
        constructor
        · intro h; exact absurd h (by simp)
        · rintro ⟨pre, hcs, hlen, hhex⟩
          cases pre with
          | nil => simp at hlen
          | cons p pt =>
            have hp : p = c := (List.cons.inj hcs.symm).1
            exact absurd (hp ▸ hhex p (List.mem_cons_self p pt)) hc

/-- The `validUUID` regular expression matches exactly the strings that
start with the canonical hyphenated hexadecimal form. -/
theorem validUUIDMatch_iff (cs : List Char) :
    validUUIDMatch cs = true ↔ CanonicalUUIDStart cs := by
  constructor
  · intro h
    unfold validUUIDMatch at h
    split at h <;> try exact Bool.noConfusion h
    rename_i cs1 h8
    split at h <;> try exact Bool.noConfusion h
    rename_i cs2 h4b
    split at h <;> try exact Bool.noConfusion h
    rename_i cs3 h4c
    split at h <;> try exact Bool.noConfusion h
    rename_i cs4 h4d
    rw [Option.isSome_iff_exists] at h
    obtain ⟨rest, h12⟩ := h
    obtain ⟨a, ha, hal, hahex⟩ := (hexRun_eq_some 8 cs _).mp h8
    obtain ⟨b, hb, hbl, hbhex⟩ := (hexRun_eq_some 4 cs1 _).mp h4b
    obtain ⟨c, hcx, hcl, hchex⟩ := (hexRun_eq_some 4 cs2 _).mp h4c
    obtain ⟨d, hd, hdl, hdhex⟩ := (hexRun_eq_some 4 cs3 _).mp h4d
    obtain ⟨e, he, hel, hehex⟩ := (hexRun_eq_some 12 cs4 _).mp h12
    refine ⟨a, b, c, d, e, rest, ?_, hal, hbl, hcl, hdl, hel, ?_⟩
    · rw [ha, hb, hcx, hd, he]
    · intro ch hch
      simp only [List.mem_append] at hch
      rcases hch with (((h1 | h1) | h1) | h1) | h1
      · exact hahex ch h1
      · exact hbhex ch h1
      · exact hchex ch h1
      · exact hdhex ch h1
      · exact hehex ch h1
  · rintro ⟨a, b, c, d, e, rest, hcs, hal, hbl, hcl, hdl, hel, hhex⟩
    have hmem : ∀ (x : List Char), (∀ ch ∈ x, ch ∈ a ++ b ++ c ++ d ++ e) →
        ∀ ch ∈ x, isHexDigit ch = true := fun x hx ch hch => hhex ch (hx ch hch)
    have e8 : hexRun 8 cs = some ('-' :: (b ++ '-' :: (c ++ '-' :: (d ++ '-' :: (e ++ rest))))) :=
      (hexRun_eq_some 8 cs _).mpr ⟨a, by rw [hcs], hal,
        hmem a (fun ch hch => by simp [hch])⟩
    have e4b : hexRun 4 (b ++ '-' :: (c ++ '-' :: (d ++ '-' :: (e ++ rest))))
        = some ('-' :: (c ++ '-' :: (d ++ '-' :: (e ++ rest)))) :=
      (hexRun_eq_some 4 _ _).mpr ⟨b, rfl, hbl,
        hmem b (fun ch hch => by simp [hch])⟩
    have e4c : hexRun 4 (c ++ '-' :: (d ++ '-' :: (e ++ rest)))
        = some ('-' :: (d ++ '-' :: (e ++ rest))) :=
      (hexRun_eq_some 4 _ _).mpr ⟨c, rfl, hcl,
        hmem c (fun ch hch => by simp [hch])⟩
    have e4d : hexRun 4 (d ++ '-' :: (e ++ rest)) = some ('-' :: (e ++ rest)) :=
      (hexRun_eq_some 4 _ _).mpr ⟨d, rfl, hdl,
        hmem d (fun ch hch => by simp [hch])⟩
    have e12 : hexRun 12 (e ++ rest) = some rest :=
      (hexRun_eq_some 12 _ _).mpr ⟨e, rfl, hel,
        hmem e (fun ch hch => by simp [hch])⟩
    unfold validUUIDMatch
    simp [e8, e4b, e4c, e4d, e12]

/-- C8: `UUIDMap` succeeds on a string exactly when its trimmed value
starts with the canonical 8-4-4-4-12 hyphenated hexadecimal form
(trailing characters are not rejected), returning the trimmed string;
it fails on the truncated input "cb89a4a9-7a7e-59ea-a0f2" and on every
non-string value (maptrans.go lines 118-122 and 414-424). -/
theorem uuidMap_canonical :
    (∀ (s : String) (v : Value), UUIDMap (.str s) = .ok v ↔
      (CanonicalUUIDStart (goTrim s).data ∧ v = .str (goTrim s))) ∧
    UUIDMap (.str "cb89a4a9-7a7e-59ea-a0f2")
      = .error (.plain "cb89a4a9-7a7e-59ea-a0f2 is not a valid UUID") ∧
    (∀ v : Value, (∀ s, v ≠ .str s) → UUIDMap v = .error (.plain " is not a string")) := by
  refine ⟨?_, rfl, ?_⟩
  · intro s v
    constructor
    · intro h
      by_cases hm : validUUIDMatch (goTrim s).data = true
      · have hok : UUIDMap (.str s) = .ok (.str (goTrim s)) := by
          simp [UUIDMap, hm]
        rw [hok] at h
        exact ⟨(validUUIDMatch_iff _).mp hm, (Except.ok.inj h).symm⟩
      · have herr : UUIDMap (.str s)
            = .error (.plain (goTrim s ++ " is not a valid UUID")) := by
          simp [UUIDMap, hm]
        rw [herr] at h
        exact absurd h (by simp)
    · rintro ⟨hc, hv⟩
      subst hv
      simp [UUIDMap, (validUUIDMatch_iff _).mpr hc]
  · intro v hv
    cases v with
    | null => rfl
    | bool b => rfl
    | int n => rfl
    | str s => exact absurd rfl (hv s)
    | record fs => rfl
    | array vs => rfl

/-- Witness for C8: a 36-character UUID with surrounding whitespace and
trailing garbage is accepted and returned trimmed. -/
theorem uuidMap_canonical_witness :
    UUIDMap (.str " cb89a4a9-7a7e-59ea-a0f2-0123456789abXY ")
      = .ok (.str "cb89a4a9-7a7e-59ea-a0f2-0123456789abXY") :=
  (uuidMap_canonical.1 " cb89a4a9-7a7e-59ea-a0f2-0123456789abXY "
    (.str "cb89a4a9-7a7e-59ea-a0f2-0123456789abXY")).mpr
    ⟨⟨"cb89a4a9".data, "7a7e".data, "59ea".data, "a0f2".data,
      "0123456789ab".data, "XY".data, by decide, by decide, by decide,
      by decide, by decide, by decide, by decide⟩, rfl⟩

/-- Resolution of an empty `TargetName` to the source key, as phase 2
of `Translate` performs it (maptrans.go lines 180-183). -/
def resolveTarget (md : Description) (attr : String) : String :=
  if md.targetName = "" then attr else md.targetName

/-- The element loop of the nested-array branch treats each record
element exactly as a recursive `Translate` call does. -/
theorem translateArrayVals_cons_record (r : Fields) (t : VList) (sub : Option Descr) :
    translateArrayVals (.cons (.record r) t) sub =
      match translate r sub with
      | .error p => .error p.2
      | .ok tr =>
        match translateArrayVals t sub with
        | .error e => .error e
        | .ok ts => .ok (.cons (.record tr) ts) := by
  cases sub with
  | none => rfl
  | some sd =>
    cases hmc : mandatoryCheck r sd with
    | some e => simp [translateArrayVals, translate, hmc]
    | none =>
      cases htf : translateFields r sd r .nil with
      | error p => simp [translateArrayVals, translate, hmc, htf]
      | ok r2 =>
        cases hip : insertPhase r sd r2 with
        | error p => simp [translateArrayVals, translate, hmc, htf, hip]
        | ok tr => simp [translateArrayVals, translate, hmc, htf, hip]

/-- Success characterisation of the nested-array element loop: the
output has the same length and each output element at index `i` is the
translation of the input element at index `i`. -/
theorem translateArrayVals_ok : ∀ (vs : VList) (sub : Option Descr) (out : VList),
    translateArrayVals vs sub = .ok out →
    vlen out = vlen vs ∧
      ∀ i, i < vlen vs → ∃ r tr, vnth vs i = some (.record r) ∧
        translate r sub = .ok tr ∧ vnth out i = some (.record tr) := by
  intro vs
  induction vs with
  | nil =>
    intro sub out h
    have hout : out = .nil := by
      simpa [translateArrayVals] using (Except.ok.inj h).symm
    subst hout
    exact ⟨rfl, fun i hi => absurd hi (by simp [vlen])⟩
  | cons v t ih =>
    intro sub out h
    cases v with
    | record r =>
      rw [translateArrayVals_cons_record] at h
      cases htr : translate r sub with
      | error p => rw [htr] at h; exact absurd h (by simp)
      | ok tr =>
        rw [htr] at h
        cases hts : translateArrayVals t sub with
        | error e => rw [hts] at h; exact absurd h (by simp)
        | ok ts =>
          rw [hts] at h
          have hout : out = .cons (.record tr) ts := (Except.ok.inj h).symm
          subst hout
          obtain ⟨hlen, helem⟩ := ih sub ts hts
          refine ⟨by simp [vlen, hlen], ?_⟩
          intro i hi
          cases i with
          | zero => exact ⟨r, tr, rfl, htr, rfl⟩
          | succ j =>
            have hj : j < vlen t := by
              simpa [vlen] using Nat.lt_of_succ_lt_succ hi
            obtain ⟨rj, trj, h1, h2, h3⟩ := helem j hj
            exact ⟨rj, trj, h1, h2, h3⟩
    | null => exact absurd h (by simp [translateArrayVals])
    | bool b => exact absurd h (by simp [translateArrayVals])
    | int n => exact absurd h (by simp [translateArrayVals])
    | str s => exact absurd h (by simp [translateArrayVals])
    | array vs2 => exact absurd h (by simp [translateArrayVals])

/-- Failure characterisation of the nested-array element loop on a
decodable input: the loop fails exactly with the error of the first
failing element, every earlier element translating successfully. -/
theorem translateArrayVals_error : ∀ (vs : VList) (sub : Option Descr) (e : MErr),
    allRecords vs = true → translateArrayVals vs sub = .error e →
    ∃ i r p, vnth vs i = some (.record r) ∧ translate r sub = .error p ∧
      p.2 = e ∧
      ∀ j, j < i → ∃ rj trj, vnth vs j = some (.record rj) ∧
        translate rj sub = .ok trj := by
  intro vs
  induction vs with
  | nil => intro sub e _ h; exact absurd h (by simp [translateArrayVals])
  | cons v t ih =>
    intro sub e hall h
    cases v with
    | record r =>
      rw [translateArrayVals_cons_record] at h
      cases htr : translate r sub with
      | error p =>
        rw [htr] at h
        refine ⟨0, r, p, rfl, htr, ?_, fun j hj => absurd hj (by simp)⟩
        simpa using Except.error.inj h
      | ok tr =>
        rw [htr] at h
        cases hts : translateArrayVals t sub with
        | error e2 =>
          rw [hts] at h
          have he : e2 = e := by simpa using Except.error.inj h
          have hall' : allRecords t = true := by simpa [allRecords] using hall
          obtain ⟨i, ri, p, h1, h2, h3, h4⟩ := ih sub e2 hall' hts
          refine ⟨i + 1, ri, p, h1, h2, h3.trans he, ?_⟩
          intro j hj
          cases j with
          | zero => exact ⟨r, tr, rfl, htr⟩
          | succ j2 =>
            obtain ⟨rj, trj, g1, g2⟩ := h4 j2 (Nat.lt_of_succ_lt_succ hj)
            exact ⟨rj, trj, g1, g2⟩
        | ok ts => rw [hts] at h; exact absurd h (by simp)
    | null => exact absurd hall (by simp [allRecords])
    | bool b => exact absurd hall (by simp [allRecords])
    | int n => exact absurd hall (by simp [allRecords])
    | str s => exact absurd hall (by simp [allRecords])
    | array vs2 => exact absurd hall (by simp [allRecords])

/-- C3: for a `MapArrayTranslation` rule on a source field whose value
coerces to a sequence of records, phase 2 stores under the resolved
target name a sequence of equal length whose element at every index `i`
is the translation of the source element at index `i` (order
preserved), and the failure of any element aborts the whole call with
that element's error (maptrans.go lines 211-228). -/
theorem nestedArray_order_law :
    (∀ (whole acc : Fields) (d : Descr) (attr : String) (vs : VList)
        (rest : Fields) (md : Description),
      lookupDescr d attr = some (.rule md) → md.type = .mapArray →
      allRecords vs = true →
      translateFields whole d (.cons attr (.array vs) rest) acc =
        match translateArrayVals vs md.subTranslation with
        | .error e => .error (none, e)
        | .ok out =>
          translateFields whole d rest (setF acc (resolveTarget md attr) (.array out))) ∧
    (∀ (vs : VList) (sub : Option Descr) (out : VList),
      translateArrayVals vs sub = .ok out →
      vlen out = vlen vs ∧
        ∀ i, i < vlen vs → ∃ r tr, vnth vs i = some (.record r) ∧
          translate r sub = .ok tr ∧ vnth out i = some (.record tr)) ∧
    (∀ (vs : VList) (sub : Option Descr) (e : MErr),
      allRecords vs = true → translateArrayVals vs sub = .error e →
      ∃ i r p, vnth vs i = some (.record r) ∧ translate r sub = .error p ∧
        p.2 = e ∧
        ∀ j, j < i → ∃ rj trj, vnth vs j = some (.record rj) ∧
          translate rj sub = .ok trj) := by
  refine ⟨?_, translateArrayVals_ok, translateArrayVals_error⟩
  intro whole acc d attr vs rest md hlook hty hall
  cases hav : translateArrayVals vs md.subTranslation with
  | error e => simp [translateFields, hlook, hty, hall, hav, resolveTarget]
  | ok out => simp [translateFields, hlook, hty, hall, hav, resolveTarget]

/-- Witness for C3 on a concrete two-element array: order and length
are preserved and each element is translated with the sub-description. -/
theorem nestedArray_order_law_witness :
    vlen (.cons (.record (.cons "a" (.str "1") .nil))
          (.cons (.record (.cons "a" (.str "2") .nil)) .nil)) = 2 ∧
    translateArrayVals
        (.cons (.record (.cons "AA" (.str "1") .nil))
          (.cons (.record (.cons "AA" (.str "2") .nil)) .nil))
        (some (.cons "AA" (.rename "a") .nil))
      = .ok (.cons (.record (.cons "a" (.str "1") .nil))
          (.cons (.record (.cons "a" (.str "2") .nil)) .nil)) ∧
    vlen (.cons (.record (.cons "a" (.str "1") .nil))
          (.cons (.record (.cons "a" (.str "2") .nil)) .nil))
      = vlen (.cons (.record (.cons "AA" (.str "1") .nil))
          (.cons (.record (.cons "AA" (.str "2") .nil)) .nil)) := by
  refine ⟨rfl, rfl, ?_⟩
  exact (nestedArray_order_law.2.1
    (.cons (.record (.cons "AA" (.str "1") .nil))
      (.cons (.record (.cons "AA" (.str "2") .nil)) .nil))
    (some (.cons "AA" (.rename "a") .nil))
    (.cons (.record (.cons "a" (.str "1") .nil))
      (.cons (.record (.cons "a" (.str "2") .nil)) .nil)) rfl).1

/-- Membership of a key/value pair in a record. -/
def fieldMem : Fields → String → Value → Prop
  | .nil, _, _ => False
  | .cons k v t, k', v' => (k = k' ∧ v = v') ∨ fieldMem t k' v'

/-- Every failure of `StringMap` is a plain error. -/
theorem StringMap_error_plain : ∀ (v : Value) (e : MErr),
    StringMap v = .error e → ∃ msg, e = .plain msg := by
  intro v e h
  cases v with
  | null => exact ⟨_, (Except.error.inj h).symm⟩
  | bool b => exact ⟨_, (Except.error.inj h).symm⟩
  | int n => exact ⟨_, (Except.error.inj h).symm⟩
  | str s => exact absurd h (by simp [StringMap])
  | record fs => exact ⟨_, (Except.error.inj h).symm⟩
  | array vs => exact ⟨_, (Except.error.inj h).symm⟩

/-- Every failure of the insert phase carries a nil result map. -/
theorem insertPhase_error_none : ∀ (src : Fields) (d : Descr) (res : Fields)
    (p : Option Fields × MErr), insertPhase src d res = .error p → p.1 = none := by
  intro src d
  induction d with
  | nil => intro res p h; exact absurd h (by simp [insertPhase])
  | cons k e0 t ih =>
    intro res p h
    cases e0 with
    | rename target => exact ih res p (by simpa [insertPhase] using h)
    | other r =>
      simp only [insertPhase] at h
      rw [← Except.error.inj h]
    | rule md =>
      by_cases hty : md.type = .insert
      · cases hf : md.insertFunc with
        | none =>
          simp only [insertPhase, hty, hf, if_pos] at h
          rw [← Except.error.inj h]
        | some f =>
          by_cases hp : memF res md.targetName = true
          · exact ih res p (by simpa [insertPhase, hty, hf, hp] using h)
          · cases hfv : f src res k with
            | error e2 =>
              simp only [insertPhase, hty, hf, if_pos, hp, if_neg, hfv,
                Bool.not_eq_true] at h
              rw [← Except.error.inj h]
            | ok v2 =>
              refine ih (setF res md.targetName v2) p ?_
              simpa [insertPhase, hty, hf, hp, hfv] using h
      · exact ih res p (by simpa [insertPhase, hty] using h)

/-- Failures of phase 2 that carry a non-nil result map originate in
the rename-string branch only: the error is an `InvalidPropertyError`
wrapping a default-string-normalization failure on a source field
that the description renames. -/
theorem translateFields_error_some : ∀ (whole : Fields) (d : Descr)
    (fields acc r : Fields) (e : MErr),
    translateFields whole d fields acc = .error (some r, e) →
    ∃ attr v target msg, fieldMem fields attr v ∧
      lookupDescr d attr = some (.rename target) ∧
      StringMap v = .error (.plain msg) ∧ e = .invalidProperty attr msg := by
  intro whole d fields
  induction fields with
  | nil => intro acc r e h; exact absurd h (by simp [translateFields])
  | cons attr v rest ih =>
    intro acc r e h
    cases hl : lookupDescr d attr with
    | none =>
      obtain ⟨a2, v2, t2, m2, h1, h2, h3, h4⟩ :=
        ih acc r e (by simpa [translateFields, hl] using h)
      exact ⟨a2, v2, t2, m2, Or.inr h1, h2, h3, h4⟩
    | some entry =>
      cases entry with
      | rename target =>
        cases hs : StringMap v with
        | error e2 =>
          simp only [translateFields, hl, hs] at h
          obtain ⟨msg, hmsg⟩ := StringMap_error_plain v e2 hs
          subst hmsg
          refine ⟨attr, v, target, msg, Or.inl ⟨rfl, rfl⟩, hl, hs, ?_⟩
          have := Except.error.inj h
          have h2 := congrArg Prod.snd this
          simpa [MErr.message] using h2.symm
        | ok v2 =>
          obtain ⟨a2, v2x, t2, m2, h1, h2, h3, h4⟩ :=
            ih (setF acc target v2) r e (by simpa [translateFields, hl, hs] using h)
          exact ⟨a2, v2x, t2, m2, Or.inr h1, h2, h3, h4⟩
      | other rp =>
        simp only [translateFields, hl] at h
        exact absurd (congrArg Prod.fst (Except.error.inj h)) (by simp)
      | rule md =>
        cases hty : md.type with
        | custom =>
          cases hf : md.mapFunc with
          | none =>
            simp only [translateFields, hl, hty, hf] at h
            exact absurd (congrArg Prod.fst (Except.error.inj h)) (by simp)
          | some f =>
            cases hfv : f v with
            | error e2 =>
              simp only [translateFields, hl, hty, hf, hfv] at h
              exact absurd (congrArg Prod.fst (Except.error.inj h)) (by simp)
            | ok v2 =>
              obtain ⟨a2, v2x, t2, m2, h1, h2, h3, h4⟩ :=
                ih _ r e (by simpa [translateFields, hl, hty, hf, hfv] using h)
              exact ⟨a2, v2x, t2, m2, Or.inr h1, h2, h3, h4⟩
        | map =>
          cases v with
          | record srcMap =>
            cases hsub : md.subTranslation with
            | none =>
              obtain ⟨a2, v2x, t2, m2, h1, h2, h3, h4⟩ :=
                ih _ r e (by simpa [translateFields, hl, hty, hsub] using h)
              exact ⟨a2, v2x, t2, m2, Or.inr h1, h2, h3, h4⟩
            | some sd =>
              cases hmc : mandatoryCheck srcMap sd with
              | some e2 =>
                simp only [translateFields, hl, hty, hsub, hmc] at h
                exact absurd (congrArg Prod.fst (Except.error.inj h)) (by simp)
              | none =>
                cases htf : translateFields srcMap sd srcMap .nil with
                | error p2 =>
                  simp only [translateFields, hl, hty, hsub, hmc, htf] at h
                  exact absurd (congrArg Prod.fst (Except.error.inj h)) (by simp)
                | ok r2 =>
                  cases hip : insertPhase srcMap sd r2 with
                  | error p2 =>
                    simp only [translateFields, hl, hty, hsub, hmc, htf, hip] at h
                    exact absurd (congrArg Prod.fst (Except.error.inj h)) (by simp)
                  | ok tr =>
                    obtain ⟨a2, v2x, t2, m2, h1, h2, h3, h4⟩ :=
                      ih _ r e
                        (by simpa [translateFields, hl, hty, hsub, hmc, htf, hip] using h)
                    exact ⟨a2, v2x, t2, m2, Or.inr h1, h2, h3, h4⟩
          | null =>
            simp only [translateFields, hl, hty] at h
            exact absurd (congrArg Prod.fst (Except.error.inj h)) (by simp)
          | bool b =>
            simp only [translateFields, hl, hty] at h
            exact absurd (congrArg Prod.fst (Except.error.inj h)) (by simp)
          | int n =>
            simp only [translateFields, hl, hty] at h
            exact absurd (congrArg Prod.fst (Except.error.inj h)) (by simp)
          | str s =>
            simp only [translateFields, hl, hty] at h
            exact absurd (congrArg Prod.fst (Except.error.inj h)) (by simp)
          | array vs =>
            simp only [translateFields, hl, hty] at h
            exact absurd (congrArg Prod.fst (Except.error.inj h)) (by simp)
        | mapArray =>
          cases v with
          | array vs =>
            by_cases hall : allRecords vs = true
            · cases hav : translateArrayVals vs md.subTranslation with
              | error e2 =>
                simp only [translateFields, hl, hty, hall, if_pos, hav] at h
                exact absurd (congrArg Prod.fst (Except.error.inj h)) (by simp)
              | ok out =>
                obtain ⟨a2, v2x, t2, m2, h1, h2, h3, h4⟩ :=
                  ih _ r e (by simpa [translateFields, hl, hty, hall, hav] using h)
                exact ⟨a2, v2x, t2, m2, Or.inr h1, h2, h3, h4⟩
            · simp only [translateFields, hl, hty, hall] at h
              exact absurd (congrArg Prod.fst (Except.error.inj h)) (by simp)
          | null =>
            simp only [translateFields, hl, hty] at h
            exact absurd (congrArg Prod.fst (Except.error.inj h)) (by simp)
          | bool b =>
            simp only [translateFields, hl, hty] at h
            exact absurd (congrArg Prod.fst (Except.error.inj h)) (by simp)
          | int n =>
            simp only [translateFields, hl, hty] at h
            exact absurd (congrArg Prod.fst (Except.error.inj h)) (by simp)
          | str s =>
            simp only [translateFields, hl, hty] at h
            exact absurd (congrArg Prod.fst (Except.error.inj h)) (by simp)
          | record fs =>
            simp only [translateFields, hl, hty] at h
            exact absurd (congrArg Prod.fst (Except.error.inj h)) (by simp)
        | modify =>
          cases hf : md.modFunc with
          | none =>
            simp only [translateFields, hl, hty, hf] at h
            exact absurd (congrArg Prod.fst (Except.error.inj h)) (by simp)
          | some f =>
            cases hfv : f whole acc v with
            | error e2 =>
              simp only [translateFields, hl, hty, hf, hfv] at h
              exact absurd (congrArg Prod.fst (Except.error.inj h)) (by simp)
            | ok acc2 =>
              obtain ⟨a2, v2x, t2, m2, h1, h2, h3, h4⟩ :=
                ih acc2 r e (by simpa [translateFields, hl, hty, hf, hfv] using h)
              exact ⟨a2, v2x, t2, m2, Or.inr h1, h2, h3, h4⟩
        | insert =>
          obtain ⟨a2, v2x, t2, m2, h1, h2, h3, h4⟩ :=
            ih acc r e (by simpa [translateFields, hl, hty] using h)
          exact ⟨a2, v2x, t2, m2, Or.inr h1, h2, h3, h4⟩
        | unknown =>
          simp only [translateFields, hl, hty] at h
          exact absurd (congrArg Prod.fst (Except.error.inj h)) (by simp)

/-- Counterexample to C4: a rename-string entry whose value fails the
default string normalization makes `Translate` return the partial
result built so far (here the already translated field "a") next to
the error (maptrans.go line 169 returns `result`, not nil). -/
theorem no_partial_result_counterexample :
    Translate (.cons "A" (.str "x") (.cons "B" (.int 1) .nil))
        (some (.cons "A" (.rename "a") (.cons "B" (.rename "b") .nil)))
      = (some (.cons "a" (.str "x") .nil),
         some (.invalidProperty "B" "invalid type int for 1")) := rfl

/-- C4 amended: a `Translate` error accompanied by a non-nil result map
can arise only from the rename-string normalization branch, which
returns the partial result built so far; in particular every error of a
`Custom` rule's `MapFunc` is returned with a nil result map. -/
theorem error_result_provenance :
    (∀ (src : Fields) (d : Descr) (r : Fields) (e : MErr),
      Translate src (some d) = (some r, some e) →
      ∃ attr v target msg, fieldMem src attr v ∧
        lookupDescr d attr = some (.rename target) ∧
        StringMap v = .error (.plain msg) ∧ e = .invalidProperty attr msg) ∧
    (∀ (whole acc : Fields) (d : Descr) (attr : String) (v : Value)
        (rest : Fields) (f : Value → Except MErr Value) (md : Description)
        (e2 : MErr),
      lookupDescr d attr = some (.rule md) → md.type = .custom →
      md.mapFunc = some f → f v = .error e2 →
      translateFields whole d (.cons attr v rest) acc
        = .error (none, .invalidProperty attr e2.message)) := by
  constructor
  · intro src d r e h
    cases hmc : mandatoryCheck src d with
    | some e0 =>
      rw [show Translate src (some d) = (none, some e0) by
        simp [Translate, translate, hmc]] at h
      exact absurd (congrArg Prod.fst h) (by simp)
    | none =>
      cases htf : translateFields src d src .nil with
      | error p =>
        obtain ⟨p1, p2⟩ := p
        rw [show Translate src (some d) = (p1, some p2) by
          simp [Translate, translate, hmc, htf]] at h
        have h1 : p1 = some r := congrArg Prod.fst h
        have h2 : p2 = e := by simpa using congrArg Prod.snd h
        subst h1; subst h2
        exact translateFields_error_some src d src .nil r p2 htf
      | ok res =>
        cases hip : insertPhase src d res with
        | error p =>
          have hnone : p.1 = none := insertPhase_error_none src d res p hip
          rw [show Translate src (some d) = (p.1, some p.2) by
            simp [Translate, translate, hmc, htf, hip]] at h
          rw [hnone] at h
          exact absurd (congrArg Prod.fst h) (by simp)
        | ok fin =>
          rw [show Translate src (some d) = (some fin, none) by
            simp [Translate, translate, hmc, htf, hip]] at h
          exact absurd (congrArg Prod.snd h) (by simp)
  · intro whole acc d attr v rest f md e2 hl hty hf hfv
    simp [translateFields, hl, hty, hf, hfv]

/-- Witness for C4 amended: the provenance of the counterexample error
is its rename entry, and a concrete failing `Custom` rule (the UUID
mapper on an integer) yields a nil result map. -/
theorem error_result_provenance_witness :
    (∃ attr v target msg,
      fieldMem (.cons "A" (.str "x") (.cons "B" (.int 1) .nil)) attr v ∧
      lookupDescr (.cons "A" (.rename "a") (.cons "B" (.rename "b") .nil)) attr
        = some (.rename target) ∧
      StringMap v = .error (.plain msg) ∧
      (.invalidProperty "B" "invalid type int for 1" : MErr)
        = .invalidProperty attr msg) ∧
    translateFields .nil
        (.cons "A" (.rule (.mk none false (some UUIDMap) none none "a" .custom)) .nil)
        (.cons "A" (.int 7) .nil) .nil
      = .error (none, .invalidProperty "A" " is not a string") :=
  ⟨error_result_provenance.1 (.cons "A" (.str "x") (.cons "B" (.int 1) .nil))
      (.cons "A" (.rename "a") (.cons "B" (.rename "b") .nil))
      (.cons "a" (.str "x") .nil)
      (.invalidProperty "B" "invalid type int for 1") rfl,
    error_result_provenance.2 .nil .nil
      (.cons "A" (.rule (.mk none false (some UUIDMap) none none "a" .custom)) .nil)
      "A" (.int 7) .nil UUIDMap
      (.mk none false (some UUIDMap) none none "a" .custom)
      (.plain " is not a string") rfl rfl rfl rfl⟩

/-- Counterexample to C6: with an empty `TargetName` on a `Nested` rule,
`Translate` stores the translated record under the source key "E", but
`IsSimilar` on the very same descriptor looks the translated value up
under the empty-string key and fails, although the value is present
under the source key (maptrans.go lines 180-183 versus 486-490). -/
theorem isSimilar_targetName_counterexample :
    Translate (.cons "E" (.record (.cons "X" (.str "v") .nil)) .nil)
        (some (.cons "E" (.rule (.mk none false none none
          (some (.cons "X" (.rename "x") .nil)) "" .map)) .nil))
      = (some (.cons "E" (.record (.cons "x" (.str "v") .nil)) .nil), none) ∧
    IsSimilar (.cons "E" (.record (.cons "X" (.str "v") .nil)) .nil)
        (.cons "E" (.record (.cons "x" (.str "v") .nil)) .nil)
        (some (.cons "E" (.rule (.mk none false none none
          (some (.cons "X" (.rename "x") .nil)) "" .map)) .nil))
      = (false, some (.plain "Missing value for  in map[...]")) :=
  ⟨rfl, rfl⟩

/-- C6 amended: an unset `targetName` resolves to the source key in
phase 2 of `Translate` only; the resolution is a per-evaluation local
default (the descriptor value itself is never changed), while
`IsSimilar` uses `targetName` verbatim, so a `Nested` rule with empty
`targetName` makes the verifier look under the empty-string key and
fail when that key is absent, even if the translated value sits under
the source key. -/
theorem targetName_resolution :
    (∀ (md : Description) (attr : String),
      md.targetName = "" → resolveTarget md attr = attr) ∧
    (∀ (whole acc : Fields) (d : Descr) (attr : String) (v : Value)
        (rest : Fields) (md : Description) (f : Value → Except MErr Value)
        (v2 : Value),
      lookupDescr d attr = some (.rule md) → md.type = .custom →
      md.mapFunc = some f → f v = .ok v2 →
      translateFields whole d (.cons attr v rest) acc
        = translateFields whole d rest (setF acc (resolveTarget md attr) v2)) ∧
    (∀ (attr : String) (m rest dst : Fields) (d : Option Descr)
        (md : Description),
      lookupD d attr = some (.rule md) → md.type = .map →
      md.targetName = "" → lookupF dst "" = none →
      isSimilarFields (.cons attr (.record m) rest) dst d
        = (false, some (.plain
            ("Missing value for " ++ md.targetName ++ " in " ++ frepr dst)))) := by
  refine ⟨?_, ?_, ?_⟩
  · intro md attr h
    simp [resolveTarget, h]
  · intro whole acc d attr v rest md f v2 hl hty hf hfv
    simp [translateFields, hl, hty, hf, hfv, resolveTarget]
  · intro attr m rest dst d md hl hty htn hdst
    simp [isSimilarFields, hl, hty, htn, hdst]

/-- Witness for C6 amended at the counterexample input. -/
theorem targetName_resolution_witness :
    resolveTarget (.mk none false none none
        (some (.cons "X" (.rename "x") .nil)) "" .map) "E" = "E" ∧
    isSimilarFields
        (.cons "E" (.record (.cons "X" (.str "v") .nil)) .nil)
        (.cons "E" (.record (.cons "x" (.str "v") .nil)) .nil)
        (some (.cons "E" (.rule (.mk none false none none
          (some (.cons "X" (.rename "x") .nil)) "" .map)) .nil))
      = (false, some (.plain ("Missing value for "
          ++ (Description.mk none false none none
              (some (.cons "X" (.rename "x") .nil)) "" .map).targetName
          ++ " in "
          ++ frepr (.cons "E" (.record (.cons "x" (.str "v") .nil)) .nil)))) :=
  ⟨targetName_resolution.1 _ "E" rfl,
    targetName_resolution.2.2 "E" (.cons "X" (.str "v") .nil) .nil
      (.cons "E" (.record (.cons "x" (.str "v") .nil)) .nil)
      (some (.cons "E" (.rule (.mk none false none none
        (some (.cons "X" (.rename "x") .nil)) "" .map)) .nil))
      (.mk none false none none (some (.cons "X" (.rename "x") .nil)) "" .map)
      rfl rfl rfl rfl⟩

/-- Concatenation of description maps (used to name one entry inside a
larger description). -/
def dapp : Descr → Descr → Descr
  | .nil, d2 => d2
  | .cons k e t, d2 => .cons k e (dapp t d2)

/-- Lookup after a Go map assignment. -/
theorem lookupF_setF : ∀ (R : Fields) (k : String) (v : Value) (k' : String),
    lookupF (setF R k v) k' = if k = k' then some v else lookupF R k' := by
  intro R k v
  induction R with
  | nil =>
    intro k'
    by_cases h : k = k' <;> simp [setF, lookupF, h]
  | cons k0 v0 t ih =>
    intro k'
    by_cases h0 : k0 = k
    · subst h0
      by_cases h : k0 = k' <;> simp [setF, lookupF, h]
    · by_cases h : k0 = k'
      · subst h
        have hk : ¬(k = k0) := fun hk => h0 hk.symm
        simp [setF, lookupF, h0, hk]
      · simp [setF, lookupF, h0, h, ih k']

/-- The insert phase distributes over description concatenation. -/
theorem insertPhase_append : ∀ (d1 d2 : Descr) (src R : Fields),
    insertPhase src (dapp d1 d2) R =
      match insertPhase src d1 R with
      | .error p => .error p
      | .ok R2 => insertPhase src d2 R2 := by
  intro d1
  induction d1 with
  | nil => intro d2 src R; simp [dapp, insertPhase]
  | cons k e t ih =>
    intro d2 src R
    cases e with
    | rename target => simpa [dapp, insertPhase] using ih d2 src R
    | other r => simp [dapp, insertPhase]
    | rule md =>
      by_cases hty : md.type = .insert
      · cases hf : md.insertFunc with
        | none => simp [dapp, insertPhase, hty, hf]
        | some f =>
          by_cases hp : memF R md.targetName = true
          · simpa [dapp, insertPhase, hty, hf, hp] using ih d2 src R
          · cases hfv : f src R k with
            | error e2 => simp [dapp, insertPhase, hty, hf, hp, hfv]
            | ok v2 =>
              simpa [dapp, insertPhase, hty, hf, hp, hfv]
                using ih d2 src (setF R md.targetName v2)
      · simpa [dapp, insertPhase, hty] using ih d2 src R

/-- The insert phase never changes a key that is already present when
it starts: insertion only writes absent targets. -/
theorem insertPhase_preserves_present : ∀ (d : Descr) (src R fin : Fields)
    (t : String), memF R t = true → insertPhase src d R = .ok fin →
    lookupF fin t = lookupF R t := by
  intro d
  induction d with
  | nil =>
    intro src R fin t hmem h
    have : R = fin := by simpa [insertPhase] using h
    rw [this]
  | cons k e td ih =>
    intro src R fin t hmem h
    cases e with
    | rename target => exact ih src R fin t hmem (by simpa [insertPhase] using h)
    | other r => exact absurd h (by simp [insertPhase])
    | rule md =>
      by_cases hty : md.type = .insert
      · cases hf : md.insertFunc with
        | none => exact absurd h (by simp [insertPhase, hty, hf])
        | some f =>
          by_cases hp : memF R md.targetName = true
          · exact ih src R fin t hmem (by simpa [insertPhase, hty, hf, hp] using h)
          · cases hfv : f src R k with
            | error e2 => exact absurd h (by simp [insertPhase, hty, hf, hp, hfv])
            | ok v2 =>
              have hne : md.targetName ≠ t := by
                intro he; rw [he] at hp; exact hp hmem
              have hlook : lookupF (setF R md.targetName v2) t = lookupF R t := by
                rw [lookupF_setF, if_neg hne]
              have hmem2 : memF (setF R md.targetName v2) t = true := by
                rw [memF, hlook]; exact hmem
              have := ih src (setF R md.targetName v2) fin t hmem2
                (by simpa [insertPhase, hty, hf, hp, hfv] using h)
              rw [this, hlook]
      · exact ih src R fin t hmem (by simpa [insertPhase, hty] using h)

/-- Counterexample to C1: two `Insert` rules share the target "t".  The
result of phase 2 is empty, so "t" is absent from the result after the
per-field translation phase for BOTH rules; yet only the first fires,
and the final value under "t" is "v1", not the value "v2" that the
second rule's `insertFn` returns.  The firing condition is presence at
the rule's own turn, not after phase 2. -/
theorem insert_after_phase2_counterexample :
    translateFields Fields.nil
        (.cons "a" (.rule (.mk (some (fun _ _ _ => .ok (.str "v1")))
            false none none none "t" .insert))
          (.cons "b" (.rule (.mk (some (fun _ _ _ => .ok (.str "v2")))
            false none none none "t" .insert)) .nil))
        Fields.nil Fields.nil = .ok Fields.nil ∧
    memF Fields.nil "t" = false ∧
    (fun (_ _ : Fields) (_ : String) =>
      (Except.ok (Value.str "v2") : Except MErr Value)) Fields.nil Fields.nil "b"
      = .ok (.str "v2") ∧
    Translate Fields.nil
        (some (.cons "a" (.rule (.mk (some (fun _ _ _ => .ok (.str "v1")))
            false none none none "t" .insert))
          (.cons "b" (.rule (.mk (some (fun _ _ _ => .ok (.str "v2")))
            false none none none "t" .insert)) .nil)))
      = (some (.cons "t" (.str "v1") .nil), none) ∧
    Value.str "v1" ≠ Value.str "v2" := by
  refine ⟨rfl, rfl, rfl, rfl, ?_⟩
  intro h
  simp at h

/-- C1 amended: an `Insert` rule fires if and only if its raw
`targetName` is absent from the result at the rule's own turn of the
deferred insert phase (after phase 2 and all earlier insert rules).
When the target is present the rule is skipped and the value under the
target survives the rest of the phase unchanged; when it is absent the
value returned by `insertFn(source, resultSoFar, sourceKey)` is stored
under `targetName` and survives to the final result; an `insertFn`
failure propagates unwrapped with a nil result. -/
theorem insert_fires_iff_absent_at_turn :
    ∀ (src R2 R' : Fields) (d1 d2 : Descr) (k : String) (md : Description)
      (f : Fields → Fields → String → Except MErr Value),
    md.type = .insert → md.insertFunc = some f →
    insertPhase src d1 R2 = .ok R' →
    (memF R' md.targetName = true →
      insertPhase src (dapp d1 (.cons k (.rule md) d2)) R2
        = insertPhase src d2 R' ∧
      ∀ fin, insertPhase src d2 R' = .ok fin →
        lookupF fin md.targetName = lookupF R' md.targetName) ∧
    (memF R' md.targetName = false →
      (∀ v, f src R' k = .ok v →
        insertPhase src (dapp d1 (.cons k (.rule md) d2)) R2
          = insertPhase src d2 (setF R' md.targetName v) ∧
        ∀ fin, insertPhase src d2 (setF R' md.targetName v) = .ok fin →
          lookupF fin md.targetName = some v) ∧
      (∀ e, f src R' k = .error e →
        insertPhase src (dapp d1 (.cons k (.rule md) d2)) R2
          = .error (none, e))) := by
  intro src R2 R' d1 d2 k md f hty hf h1
  have happ : ∀ dtail, insertPhase src (dapp d1 dtail) R2 = insertPhase src dtail R' := by
    intro dtail
    rw [insertPhase_append, h1]
  constructor
  · intro hmem
    constructor
    · rw [happ]
      simp [insertPhase, hty, hf, hmem]
    · intro fin hfin
      exact insertPhase_preserves_present d2 src R' fin md.targetName hmem hfin
  · intro hmem
    constructor
    · intro v hv
      constructor
      · rw [happ]
        simp [insertPhase, hty, hf, hmem, hv]
      · intro fin hfin
        have hmem2 : memF (setF R' md.targetName v) md.targetName = true := by
          rw [memF, lookupF_setF, if_pos rfl]
          rfl
        have := insertPhase_preserves_present d2 src _ fin md.targetName hmem2 hfin
        rw [this, lookupF_setF, if_pos rfl]
    · intro e he
      rw [happ]
      simp [insertPhase, hty, hf, hmem, he]

/-- Witness for C1 amended: a single insert rule on an absent target
fires and its value survives; on a present target it is skipped and
the present value survives. -/
theorem insert_fires_iff_absent_at_turn_witness :
    (insertPhase Fields.nil
        (dapp .nil (.cons "a" (.rule (.mk (some (fun _ _ _ => .ok (.str "v1")))
          false none none none "t" .insert)) .nil)) Fields.nil
      = insertPhase Fields.nil .nil (setF Fields.nil "t" (.str "v1")) ∧
     lookupF (setF Fields.nil "t" (.str "v1")) "t" = some (.str "v1")) ∧
    (insertPhase (Fields.cons "t" (.str "old") .nil)
        (dapp .nil (.cons "a" (.rule (.mk (some (fun _ _ _ => .ok (.str "v1")))
          false none none none "t" .insert)) .nil))
        (Fields.cons "t" (.str "old") .nil)
      = insertPhase (Fields.cons "t" (.str "old") .nil) .nil
          (Fields.cons "t" (.str "old") .nil) ∧
     lookupF (Fields.cons "t" (.str "old") .nil) "t"
      = lookupF (Fields.cons "t" (.str "old") .nil) "t") := by
  constructor
  · obtain ⟨-, habs⟩ := insert_fires_iff_absent_at_turn Fields.nil Fields.nil
      Fields.nil .nil .nil "a"
      (.mk (some (fun _ _ _ => .ok (.str "v1"))) false none none none "t" .insert)
      (fun _ _ _ => .ok (.str "v1")) rfl rfl rfl
    obtain ⟨hfire, -⟩ := habs rfl
    obtain ⟨heq, hlook⟩ := hfire (.str "v1") rfl
    exact ⟨heq, hlook _ rfl⟩
  · obtain ⟨hpres, -⟩ := insert_fires_iff_absent_at_turn
      (Fields.cons "t" (.str "old") .nil) (Fields.cons "t" (.str "old") .nil)
      (Fields.cons "t" (.str "old") .nil) .nil .nil "a"
      (.mk (some (fun _ _ _ => .ok (.str "v1"))) false none none none "t" .insert)
      (fun _ _ _ => .ok (.str "v1")) rfl rfl rfl
    obtain ⟨heq, hlook⟩ := hpres rfl
    exact ⟨heq, hlook _ rfl⟩

/-- Removal of a key from a record (the source without one field). -/
def eraseF : Fields → String → Fields
  | .nil, _ => .nil
  | .cons k' v t, k => if k' = k then eraseF t k else .cons k' v (eraseF t k)

/-- A description map with no `Modify` and no `Insert` rules at top
level (the only rule kinds whose caller-supplied functions receive the
whole source record). -/
def noModifyInsert : Descr → Bool
  | .nil => true
  | .cons _ (.rule md) t =>
    !(md.type = .modify || md.type = .insert) && noModifyInsert t
  | .cons _ _ t => noModifyInsert t

/-- Target keys a description can write through its rename, custom,
nested and nested-array entries (resolved against each source key). -/
def writesKey : Descr → String → Bool
  | .nil, _ => false
  | .cons _ (.rename tgt) t, s => (tgt = s) || writesKey t s
  | .cons k0 (.rule md) t, s => (resolveTarget md k0 = s) || writesKey t s
  | .cons _ (.other _) t, s => writesKey t s

/-- Erasing a different key does not change a lookup. -/
theorem lookupF_eraseF : ∀ (src : Fields) (k k' : String), k' ≠ k →
    lookupF (eraseF src k) k' = lookupF src k' := by
  intro src k
  induction src with
  | nil => intro k' h; rfl
  | cons k0 v t ih =>
    intro k' h
    by_cases h0 : k0 = k
    · subst h0
      have : ¬(k0 = k') := fun he => h (he.symm)
      simp [eraseF, lookupF, this, ih k' h]
    · by_cases h1 : k0 = k'
      · subst h1
        simp [eraseF, lookupF, h0]
      · simp [eraseF, lookupF, h0, h1, ih k' h]

/-- A key found in a description map is not the erased one. -/
theorem lookupDescr_none_head : ∀ (d : Descr) (k k0 : String) (e : DEntry),
    lookupDescr d k = none → lookupDescr d k0 = some e → k0 ≠ k := by
  intro d
  induction d with
  | nil => intro k k0 e h h0; exact absurd h0 (by simp [lookupDescr])
  | cons k1 e1 t ih =>
    intro k k0 e h h0 hk
    subst hk
    by_cases h1 : k1 = k0
    · rw [show lookupDescr (.cons k1 e1 t) k0 = some e1 by simp [lookupDescr, h1]] at h
      exact Option.noConfusion h
    · exact ih k0 k0 e (by simpa [lookupDescr, h1] using h)
        (by simpa [lookupDescr, h1] using h0) rfl

/-- The mandatory scan only inspects keys of the description map, so
erasing a key without a description entry does not change it. -/
theorem mandatoryCheck_eraseF : ∀ (d : Descr) (src : Fields) (k : String),
    lookupDescr d k = none →
    mandatoryCheck (eraseF src k) d = mandatoryCheck src d := by
  intro d
  induction d with
  | nil => intro src k h; rfl
  | cons k0 e0 t ih =>
    intro src k h
    have hk0 : k0 ≠ k := by
      intro he
      subst he
      rw [show lookupDescr (.cons k0 e0 t) k0 = some e0 by simp [lookupDescr]] at h
      exact Option.noConfusion h
    have ht : lookupDescr t k = none := by
      simpa [lookupDescr, hk0] using h
    cases e0 with
    | rename target => simpa [mandatoryCheck] using ih src k ht
    | other r => rfl
    | rule md =>
      have hm : memF (eraseF src k) k0 = memF src k0 := by
        rw [memF, memF, lookupF_eraseF src k k0 hk0]
      by_cases hc : (md.mandatory && !(memF src k0)) = true
      · simp [mandatoryCheck, hm, hc]
      · simp only [mandatoryCheck, hm]
        rw [if_neg hc, if_neg hc]
        exact ih src k ht

/-- A rule found in a modify-free, insert-free description map is
neither a modify nor an insert rule. -/
theorem lookupDescr_noModifyInsert : ∀ (d : Descr) (attr : String)
    (md : Description), noModifyInsert d = true →
    lookupDescr d attr = some (.rule md) →
    md.type ≠ .modify ∧ md.type ≠ .insert := by
  intro d
  induction d with
  | nil => intro attr md h h0; exact absurd h0 (by simp [lookupDescr])
  | cons k0 e0 t ih =>
    intro attr md h h0
    by_cases h1 : k0 = attr
    · rw [show lookupDescr (.cons k0 e0 t) attr = some e0 by
        simp [lookupDescr, h1]] at h0
      have he : e0 = .rule md := Option.some.inj h0
      subst he
      have h2 : (¬(md.type = .modify) ∧ ¬(md.type = .insert)) ∧
          noModifyInsert t = true := by
        simpa [noModifyInsert] using h
      exact ⟨h2.1.1, h2.1.2⟩
    · have ht : noModifyInsert t = true := by
        cases e0 with
        | rename target => simpa [noModifyInsert] using h
        | other r => simpa [noModifyInsert] using h
        | rule md0 =>
          have h2 : (¬(md0.type = .modify) ∧ ¬(md0.type = .insert)) ∧
              noModifyInsert t = true := by
            simpa [noModifyInsert] using h
          exact h2.2
      exact ih attr md ht (by simpa [lookupDescr, h1] using h0)

/-- The insert phase of a modify-free, insert-free description map
never consults the source record and never changes the result. -/
theorem insertPhase_noInsert : ∀ (d : Descr) (src1 src2 R : Fields),
    noModifyInsert d = true →
    insertPhase src1 d R = insertPhase src2 d R := by
  intro d
  induction d with
  | nil => intro src1 src2 R h; rfl
  | cons k0 e0 t ih =>
    intro src1 src2 R h
    cases e0 with
    | rename target =>
      simpa [insertPhase] using ih src1 src2 R (by simpa [noModifyInsert] using h)
    | other r => rfl
    | rule md =>
      have h2 : (¬(md.type = .modify) ∧ ¬(md.type = .insert)) ∧
          noModifyInsert t = true := by
        simpa [noModifyInsert] using h
      simp only [insertPhase]
      rw [if_neg h2.1.2, if_neg h2.1.2]
      exact ih src1 src2 R h2.2

/-- Phase 2 ignores a source field without a description entry: erasing
such a key from the source (both as iterated fields and as the record
handed to rule functions) leaves the outcome unchanged, provided the
description has no `Modify` and no `Insert` rules; the `whole` record
is then never consulted. -/
theorem translateFields_erase : ∀ (d : Descr) (k : String),
    lookupDescr d k = none → noModifyInsert d = true →
    ∀ (fields : Fields) (whole1 whole2 acc : Fields),
    translateFields whole1 d (eraseF fields k) acc
      = translateFields whole2 d fields acc := by
  intro d k hk hnmi fields
  induction fields with
  | nil => intro w1 w2 acc; rfl
  | cons k0 v t ih =>
    intro w1 w2 acc
    by_cases h0 : k0 = k
    · subst h0
      rw [show eraseF (.cons k0 v t) k0 = eraseF t k0 by simp [eraseF]]
      rw [show translateFields w2 d (.cons k0 v t) acc
          = translateFields w2 d t acc by simp [translateFields, hk]]
      exact ih w1 w2 acc
    · rw [show eraseF (.cons k0 v t) k = .cons k0 v (eraseF t k) by
        simp [eraseF, h0]]
      cases hl : lookupDescr d k0 with
      | none =>
        simp only [translateFields, hl]
        exact ih w1 w2 acc
      | some entry =>
        cases entry with
        | rename target =>
          cases hs : StringMap v with
          | error e => simp [translateFields, hl, hs]
          | ok v2 =>
            simp only [translateFields, hl, hs]
            exact ih w1 w2 _
        | other r => simp [translateFields, hl]
        | rule md =>
          cases hty : md.type with
          | custom =>
            cases hf : md.mapFunc with
            | none => simp [translateFields, hl, hty, hf]
            | some f =>
              cases hfv : f v with
              | error e => simp [translateFields, hl, hty, hf, hfv]
              | ok v2 =>
                simp only [translateFields, hl, hty, hf, hfv]
                exact ih w1 w2 _
          | map =>
            cases v with
            | record srcMap =>
              cases hsub : md.subTranslation with
              | none =>
                simp only [translateFields, hl, hty, hsub]
                exact ih w1 w2 _
              | some sd =>
                cases hmc : mandatoryCheck srcMap sd with
                | some e => simp [translateFields, hl, hty, hsub, hmc]
                | none =>
                  cases htf : translateFields srcMap sd srcMap .nil with
                  | error p => simp [translateFields, hl, hty, hsub, hmc, htf]
                  | ok r2 =>
                    cases hip : insertPhase srcMap sd r2 with
                    | error p =>
                      simp [translateFields, hl, hty, hsub, hmc, htf, hip]
                    | ok tr =>
                      simp only [translateFields, hl, hty, hsub, hmc, htf, hip]
                      exact ih w1 w2 _
            | null => simp [translateFields, hl, hty]
            | bool b => simp [translateFields, hl, hty]
            | int n => simp [translateFields, hl, hty]
            | str s => simp [translateFields, hl, hty]
            | array vs => simp [translateFields, hl, hty]
          | mapArray =>
            cases v with
            | array vs =>
              by_cases hall : allRecords vs = true
              · cases hav : translateArrayVals vs md.subTranslation with
                | error e => simp [translateFields, hl, hty, hall, hav]
                | ok out =>
                  simp only [translateFields, hl, hty, hall, if_pos, hav]
                  exact ih w1 w2 _
              · simp [translateFields, hl, hty, hall]
            | null => simp [translateFields, hl, hty]
            | bool b => simp [translateFields, hl, hty]
            | int n => simp [translateFields, hl, hty]
            | str s => simp [translateFields, hl, hty]
            | record fs => simp [translateFields, hl, hty]
          | modify =>
            exact absurd hty (lookupDescr_noModifyInsert d k0 md hnmi hl).1
          | insert =>
            simp only [translateFields, hl, hty]
            exact ih w1 w2 acc
          | unknown => simp [translateFields, hl, hty]

/-- Membership after a Go map assignment to a different key. -/
theorem memF_setF_ne (R : Fields) (w : String) (v : Value) (s : String)
    (h : w ≠ s) : memF (setF R w v) s = memF R s := by
  rw [memF, memF, lookupF_setF, if_neg h]

/-- A rename target found in a description map is a key the description
can write. -/
theorem writesKey_of_rename : ∀ (d : Descr) (attr tgt : String),
    lookupDescr d attr = some (.rename tgt) → writesKey d tgt = true := by
  intro d
  induction d with
  | nil => intro attr tgt h; exact absurd h (by simp [lookupDescr])
  | cons k0 e0 t ih =>
    intro attr tgt h
    by_cases h1 : k0 = attr
    · rw [show lookupDescr (.cons k0 e0 t) attr = some e0 by
        simp [lookupDescr, h1]] at h
      have he := Option.some.inj h
      subst he
      simp [writesKey]
    · have := ih attr tgt (by simpa [lookupDescr, h1] using h)
      cases e0 with
      | rename tg2 => simp [writesKey, this]
      | rule md => simp [writesKey, this]
      | other r => simpa [writesKey] using this

/-- A resolved rule target found in a description map is a key the
description can write. -/
theorem writesKey_of_rule : ∀ (d : Descr) (attr : String) (md : Description),
    lookupDescr d attr = some (.rule md) →
    writesKey d (resolveTarget md attr) = true := by
  intro d
  induction d with
  | nil => intro attr md h; exact absurd h (by simp [lookupDescr])
  | cons k0 e0 t ih =>
    intro attr md h
    by_cases h1 : k0 = attr
    · rw [show lookupDescr (.cons k0 e0 t) attr = some e0 by
        simp [lookupDescr, h1]] at h
      have he := Option.some.inj h
      subst he
      subst h1
      simp [writesKey]
    · have := ih attr md (by simpa [lookupDescr, h1] using h)
      cases e0 with
      | rename tg2 => simp [writesKey, this]
      | rule md2 => simp [writesKey, this]
      | other r => simpa [writesKey] using this

/-- Phase 2 of a modify-free, insert-free description never writes a
key outside `writesKey`. -/
theorem translateFields_writes : ∀ (d : Descr) (s : String),
    noModifyInsert d = true → writesKey d s = false →
    ∀ (fields whole acc res : Fields), memF acc s = false →
    translateFields whole d fields acc = .ok res → memF res s = false := by
  intro d s hnmi hw fields
  induction fields with
  | nil =>
    intro whole acc res hacc h
    have : acc = res := by simpa [translateFields] using h
    rw [← this]; exact hacc
  | cons k0 v t ih =>
    intro whole acc res hacc h
    cases hl : lookupDescr d k0 with
    | none => exact ih whole acc res hacc (by simpa [translateFields, hl] using h)
    | some entry =>
      cases entry with
      | rename target =>
        cases hs : StringMap v with
        | error e => exact absurd h (by simp [translateFields, hl, hs])
        | ok v2 =>
          have hne : target ≠ s := by
            intro he
            have hwt := writesKey_of_rename d k0 target hl
            rw [he] at hwt
            exact absurd hwt (by simp [hw])
          refine ih whole (setF acc target v2) res ?_
            (by simpa [translateFields, hl, hs] using h)
          rw [memF_setF_ne acc target v2 s hne]
          exact hacc
      | other r => exact absurd h (by simp [translateFields, hl])
      | rule md =>
        have hne : resolveTarget md k0 ≠ s := by
          intro he
          have hwt := writesKey_of_rule d k0 md hl
          rw [he] at hwt
          exact absurd hwt (by simp [hw])
        cases hty : md.type with
        | custom =>
          cases hf : md.mapFunc with
          | none => exact absurd h (by simp [translateFields, hl, hty, hf])
          | some f =>
            cases hfv : f v with
            | error e => exact absurd h (by simp [translateFields, hl, hty, hf, hfv])
            | ok v2 =>
              refine ih whole _ res ?_
                (by simpa [translateFields, hl, hty, hf, hfv, resolveTarget] using h)
              rw [show (if md.targetName = "" then k0 else md.targetName)
                  = resolveTarget md k0 from rfl]
              rw [memF_setF_ne acc _ v2 s hne]
              exact hacc
        | map =>
          cases v with
          | record srcMap =>
            cases hsub : md.subTranslation with
            | none =>
              refine ih whole _ res ?_
                (by simpa [translateFields, hl, hty, hsub] using h)
              rw [show (if md.targetName = "" then k0 else md.targetName)
                  = resolveTarget md k0 from rfl]
              rw [memF_setF_ne acc _ _ s hne]
              exact hacc
            | some sd =>
              cases hmc : mandatoryCheck srcMap sd with
              | some e =>
                exact absurd h (by simp [translateFields, hl, hty, hsub, hmc])
              | none =>
                cases htf : translateFields srcMap sd srcMap .nil with
                | error p =>
                  exact absurd h (by simp [translateFields, hl, hty, hsub, hmc, htf])
                | ok r2 =>
                  cases hip : insertPhase srcMap sd r2 with
                  | error p =>
                    exact absurd h
                      (by simp [translateFields, hl, hty, hsub, hmc, htf, hip])
                  | ok tr =>
                    refine ih whole _ res ?_
                      (by simpa [translateFields, hl, hty, hsub, hmc, htf, hip] using h)
                    rw [show (if md.targetName = "" then k0 else md.targetName)
                        = resolveTarget md k0 from rfl]
                    rw [memF_setF_ne acc _ _ s hne]
                    exact hacc
          | null => exact absurd h (by simp [translateFields, hl, hty])
          | bool b => exact absurd h (by simp [translateFields, hl, hty])
          | int n => exact absurd h (by simp [translateFields, hl, hty])
          | str s2 => exact absurd h (by simp [translateFields, hl, hty])
          | array vs => exact absurd h (by simp [translateFields, hl, hty])
        | mapArray =>
          cases v with
          | array vs =>
            by_cases hall : allRecords vs = true
            · cases hav : translateArrayVals vs md.subTranslation with
              | error e =>
                exact absurd h (by simp [translateFields, hl, hty, hall, hav])
              | ok out =>
                refine ih whole _ res ?_
                  (by simpa [translateFields, hl, hty, hall, hav] using h)
                rw [show (if md.targetName = "" then k0 else md.targetName)
                    = resolveTarget md k0 from rfl]
                rw [memF_setF_ne acc _ _ s hne]
                exact hacc
            · exact absurd h (by simp [translateFields, hl, hty, hall])
          | null => exact absurd h (by simp [translateFields, hl, hty])
          | bool b => exact absurd h (by simp [translateFields, hl, hty])
          | int n => exact absurd h (by simp [translateFields, hl, hty])
          | str s2 => exact absurd h (by simp [translateFields, hl, hty])
          | record fs => exact absurd h (by simp [translateFields, hl, hty])
        | modify =>
          exact absurd hty (lookupDescr_noModifyInsert d k0 md hnmi hl).1
        | insert =>
          exact ih whole acc res hacc (by simpa [translateFields, hl, hty] using h)
        | unknown => exact absurd h (by simp [translateFields, hl, hty])

/-- The insert phase of a modify-free, insert-free description map that
succeeds returns the result unchanged. -/
theorem insertPhase_noInsert_ok : ∀ (d : Descr) (src R fin : Fields),
    noModifyInsert d = true → insertPhase src d R = .ok fin → fin = R := by
  intro d
  induction d with
  | nil => intro src R fin h hip; simpa [insertPhase] using (Except.ok.inj hip).symm
  | cons k0 e0 t ih =>
    intro src R fin h hip
    cases e0 with
    | rename target =>
      exact ih src R fin (by simpa [noModifyInsert] using h)
        (by simpa [insertPhase] using hip)
    | other r => exact absurd hip (by simp [insertPhase])
    | rule md =>
      have h2 : (¬(md.type = .modify) ∧ ¬(md.type = .insert)) ∧
          noModifyInsert t = true := by
        simpa [noModifyInsert] using h
      refine ih src R fin h2.2 ?_
      rw [show insertPhase src (.cons k0 (.rule md) t) R = insertPhase src t R by
        simp only [insertPhase]; rw [if_neg h2.1.2]] at hip
      exact hip

/-- Counterexample to C7: the source key "C" has no description entry,
yet a `Modify` rule on the key "A" reads the whole source record and
copies the value of "C" into the result under the key "C" itself, so
the unknown field appears, under its own name and with its own value,
in the result. -/
theorem unknown_field_counterexample :
    lookupDescr (.cons "A" (.rule (.mk none false none
        (some (fun s r _ => .ok (setF r "C"
          (match lookupF s "C" with | some v => v | none => .null))))
        none "" .modify)) .nil) "C" = none ∧
    Translate (.cons "A" (.str "x") (.cons "C" (.str "y") .nil))
        (some (.cons "A" (.rule (.mk none false none
          (some (fun s r _ => .ok (setF r "C"
            (match lookupF s "C" with | some v => v | none => .null))))
          none "" .modify)) .nil))
      = (some (.cons "C" (.str "y") .nil), none) :=
  ⟨rfl, rfl⟩

/-- C7 amended: for a description map without `Modify` and `Insert`
rules (the kinds whose functions receive the whole source record), a
source key with no description entry contributes nothing: erasing it
from the source leaves the outcome of `Translate` unchanged, and if it
is not a key the description writes, it does not appear in a successful
result. -/
theorem unknown_field_law : ∀ (src : Fields) (d : Descr) (k : String),
    lookupDescr d k = none → noModifyInsert d = true →
    Translate src (some d) = Translate (eraseF src k) (some d) ∧
    (writesKey d k = false → ∀ result,
      Translate src (some d) = (some result, none) → memF result k = false) := by
  intro src d k hk hnmi
  have hmc := mandatoryCheck_eraseF d src k hk
  have htf := translateFields_erase d k hk hnmi src (eraseF src k) src .nil
  constructor
  · cases hmc0 : mandatoryCheck src d with
    | some e =>
      simp [Translate, translate, hmc0, hmc.trans hmc0]
    | none =>
      cases htf0 : translateFields src d src .nil with
      | error p =>
        simp [Translate, translate, hmc0, hmc.trans hmc0, htf0, htf.trans htf0]
      | ok R =>
        have hip := insertPhase_noInsert d src (eraseF src k) R hnmi
        simp [Translate, translate, hmc0, hmc.trans hmc0, htf0, htf.trans htf0, hip]
  · intro hw result hres
    cases hmc0 : mandatoryCheck src d with
    | some e =>
      rw [show Translate src (some d) = (none, some e) by
        simp [Translate, translate, hmc0]] at hres
      exact absurd (congrArg Prod.fst hres) (by simp)
    | none =>
      cases htf0 : translateFields src d src .nil with
      | error p =>
        rw [show Translate src (some d) = (p.1, some p.2) by
          simp [Translate, translate, hmc0, htf0]] at hres
        exact absurd (congrArg Prod.snd hres) (by simp)
      | ok R =>
        cases hip0 : insertPhase src d R with
        | error p =>
          rw [show Translate src (some d) = (p.1, some p.2) by
            simp [Translate, translate, hmc0, htf0, hip0]] at hres
          exact absurd (congrArg Prod.snd hres) (by simp)
        | ok fin =>
          rw [show Translate src (some d) = (some fin, none) by
            simp [Translate, translate, hmc0, htf0, hip0]] at hres
          have hfr : fin = result := by
            simpa using congrArg Prod.fst hres
          have hfR : fin = R := insertPhase_noInsert_ok d src R fin hnmi hip0
          rw [← hfr, hfR]
          exact translateFields_writes d k hnmi hw src src .nil R rfl htf0

/-- Witness for C7 amended at the spec scenario: descriptor renaming
"A1" to "a1", source with the unknown key "C1". -/
theorem unknown_field_law_witness :
    Translate (.cons "A1" (.str "foo") (.cons "C1" (.str "missing") .nil))
        (some (.cons "A1" (.rename "a1") .nil))
      = Translate
          (eraseF (.cons "A1" (.str "foo") (.cons "C1" (.str "missing") .nil)) "C1")
          (some (.cons "A1" (.rename "a1") .nil)) ∧
    memF (.cons "a1" (.str "foo") .nil) "C1" = false := by
  obtain ⟨h1, h2⟩ := unknown_field_law
    (.cons "A1" (.str "foo") (.cons "C1" (.str "missing") .nil))
    (.cons "A1" (.rename "a1") .nil) "C1" rfl rfl
  exact ⟨h1, h2 rfl (.cons "a1" (.str "foo") .nil) rfl⟩

mutual
/-- Size of a value, for strong induction over nested records. -/
def sizeV : Value → Nat
  | .record fs => sizeF fs + 1
  | .array vs => sizeVL vs + 1
  | _ => 1

/-- Size of a record. -/
def sizeF : Fields → Nat
  | .nil => 0
  | .cons _ v t => sizeV v + sizeF t + 1

/-- Size of a value list. -/
def sizeVL : VList → Nat
  | .nil => 0
  | .cons v t => sizeV v + sizeVL t + 1
end

/-- Records have pairwise distinct keys (Go maps always do; the
association-list model states it explicitly). -/
def nodupKeysF : Fields → Bool
  | .nil => true
  | .cons k _ t => !(memF t k) && nodupKeysF t

/-- The result key an entry writes: the rename target, or the rule
target resolved against the source key. -/
def targetKey (k : String) : DEntry → String
  | .rename tgt => tgt
  | .rule md => resolveTarget md k
  | .other _ => k

/-- Membership of a string among the written keys of a description. -/
def memTarget : Descr → String → Bool
  | .nil, _ => false
  | .cons k e t, s => (targetKey k e = s) || memTarget t s

/-- The written keys of a description are pairwise distinct. -/
def nodupTargets : Descr → Bool
  | .nil => true
  | .cons k e t => !(memTarget t (targetKey k e)) && nodupTargets t

/-- A description containing only rename strings and `Nested` or
`NestedArray` rules (the kinds the similarity verifier checks). -/
def structOnly : Descr → Bool
  | .nil => true
  | .cons _ (.rename _) t => structOnly t
  | .cons _ (.rule md) t =>
    (md.type = .map || md.type = .mapArray) && structOnly t
  | .cons _ (.other _) _ => false

mutual
/-- Specification-side construction of the swapped description `d'` of
the round-trip law: the spec swaps target and source names for rename
entries and for `Nested` and `NestedArray` rules, recursively swapping
sub-descriptions; other entries, which the law excludes, are kept. -/
def swapDescr : Descr → Descr
  | .nil => .nil
  | .cons k (.rename tgt) rest => .cons tgt (.rename k) (swapDescr rest)
  | .cons k (.rule md) rest =>
    .cons (resolveTarget md k) (.rule (swapRule k md)) (swapDescr rest)
  | .cons k (.other r) rest => .cons k (.other r) (swapDescr rest)

/-- Swapped form of one rule: the old source key becomes the target
name and the sub-description is swapped. -/
def swapRule (k : String) : Description → Description
  | .mk inf m mf modf sub _ ty =>
    .mk inf m mf modf
      (match sub with
       | none => none
       | some sd => some (swapDescr sd)) k ty
end

/-- Swapped form of an optional sub-description. -/
def swapOD : Option Descr → Option Descr
  | none => none
  | some d => some (swapDescr d)

mutual
/-- Round-trip well-formedness of one source field value against its
description entry: a rename entry requires an already trimmed string, a
`Nested` rule requires a record well formed against the
sub-description (with distinct keys and distinct written targets), a
`NestedArray` rule requires an array of such records; fields without an
entry are unconstrained, all other entry shapes are excluded. -/
def fieldCondRT (d : Descr) (k : String) : Value → Bool
  | .str s =>
    (match lookupDescr d k with
     | none => true
     | some (.rename _) => goTrim s = s
     | some _ => false)
  | .record m =>
    (match lookupDescr d k with
     | none => true
     | some (.rule md) =>
       (match md.type with
        | .map =>
          (match md.subTranslation with
           | none => true
           | some sd =>
             nodupKeysF m && nodupTargets sd && structOnly sd &&
               wfFieldsRT sd m)
        | _ => false)
     | some _ => false)
  | .array vs =>
    (match lookupDescr d k with
     | none => true
     | some (.rule md) =>
       (match md.type with
        | .mapArray => allRecords vs && wfArrRT md.subTranslation vs
        | _ => false)
     | some _ => false)
  | _ =>
    (match lookupDescr d k with
     | none => true
     | some _ => false)
termination_by structural v => v

/-- Round-trip well-formedness of a source record against a structural
description: every field satisfies its per-field condition. -/
def wfFieldsRT (d : Descr) : Fields → Bool
  | .nil => true
  | .cons k v rest => fieldCondRT d k v && wfFieldsRT d rest
termination_by structural fs => fs

/-- Round-trip well-formedness of the elements of a nested array. -/
def wfArrRT (sub : Option Descr) : VList → Bool
  | .nil => true
  | .cons (.record r) t =>
    (match sub with
     | none => true
     | some sd =>
       nodupKeysF r && nodupTargets sd && structOnly sd && wfFieldsRT sd r)
    && wfArrRT sub t
  | .cons _ _ => false
termination_by structural vs => vs
end

/-- Conditions a nested record must satisfy to recurse the round trip
with a sub-description. -/
def recCondRT (sub : Option Descr) (r : Fields) : Bool :=
  match sub with
  | none => true
  | some sd =>
    nodupKeysF r && nodupTargets sd && structOnly sd && wfFieldsRT sd r

/-- Sanity check: swapping a rename-only description. -/
theorem scenario_swap : swapDescr (.cons "A" (.rename "B") (.cons "B" (.rename "b") .nil))
    = .cons "B" (.rename "A") (.cons "b" (.rename "B") .nil) := rfl

/-- Sanity check: the round-trip wellformedness holds on a plain rename. -/
theorem scenario_wf : wfFieldsRT (.cons "A1" (.rename "a1") .nil)
    (.cons "A1" (.str "foo") .nil) = true := rfl

/-- Swapped form of one description entry. -/
def swapE (k : String) : DEntry → DEntry
  | .rename _ => .rename k
  | .rule md => .rule (swapRule k md)
  | .other r => .other r

/-- A field value is smaller than the record containing it. -/
theorem sizeV_lt_of_fieldMem : ∀ (fs : Fields) (k : String) (v : Value),
    fieldMem fs k v → sizeV v < sizeF fs := by
  intro fs
  induction fs with
  | nil => intro k v h; exact absurd h id
  | cons k0 v0 t ih =>
    intro k v h
    rcases h with ⟨-, he⟩ | h
    · subst he
      simp only [sizeF]
      omega
    · have := ih k v h
      simp only [sizeF]
      omega

/-- A list element is no larger than the list containing it. -/
theorem sizeV_le_of_vnth : ∀ (vs : VList) (i : Nat) (v : Value),
    vnth vs i = some v → sizeV v ≤ sizeVL vs := by
  intro vs
  induction vs with
  | nil => intro i v h; exact absurd h (by simp [vnth])
  | cons v0 t ih =>
    intro i v h
    cases i with
    | zero =>
      have : v0 = v := Option.some.inj (by simpa [vnth] using h)
      subst this
      simp only [sizeVL]
      omega
    | succ j =>
      have := ih j v (by simpa [vnth] using h)
      simp only [sizeVL]
      omega

/-- Success shape of the default string normalization. -/
theorem StringMap_ok : ∀ (v v2 : Value), StringMap v = .ok v2 →
    ∃ s, v = .str s ∧ v2 = .str (goTrim s) := by
  intro v v2 h
  cases v with
  | str s => exact ⟨s, rfl, (Except.ok.inj h).symm⟩
  | null => exact absurd h (by simp [StringMap])
  | bool b => exact absurd h (by simp [StringMap])
  | int n => exact absurd h (by simp [StringMap])
  | record fs => exact absurd h (by simp [StringMap])
  | array vs => exact absurd h (by simp [StringMap])

/-- Field membership after a Go map assignment. -/
theorem fieldMem_setF : ∀ (acc : Fields) (w : String) (v : Value)
    (t : String) (u : Value), fieldMem (setF acc w v) t u →
    (t = w ∧ u = v) ∨ fieldMem acc t u := by
  intro acc w v
  induction acc with
  | nil =>
    intro t u h
    rcases (by simpa [setF, fieldMem] using h : (w = t ∧ v = u) ∨ False) with ⟨h1, h2⟩ | h
    · exact Or.inl ⟨h1.symm, h2.symm⟩
    · exact absurd h id
  | cons k0 v0 t0 ih =>
    intro t u h
    by_cases h0 : k0 = w
    · rw [show setF (.cons k0 v0 t0) w v = .cons w v t0 by simp [setF, h0]] at h
      rcases h with ⟨h1, h2⟩ | h
      · exact Or.inl ⟨h1.symm, h2.symm⟩
      · exact Or.inr (Or.inr h)
    · rw [show setF (.cons k0 v0 t0) w v = .cons k0 v0 (setF t0 w v) by
        simp [setF, h0]] at h
      rcases h with ⟨h1, h2⟩ | h
      · exact Or.inr (Or.inl ⟨h1, h2⟩)
      · rcases ih t u h with h2 | h2
        · exact Or.inl h2
        · exact Or.inr (Or.inr h2)

/-- A member field is found by lookup. -/
theorem memF_of_fieldMem : ∀ (fs : Fields) (k : String) (v : Value),
    fieldMem fs k v → memF fs k = true := by
  intro fs
  induction fs with
  | nil => intro k v h; exact absurd h id
  | cons k0 v0 t ih =>
    intro k v h
    by_cases h0 : k0 = k
    · simp [memF, lookupF, h0]
    · rcases h with ⟨h1, -⟩ | h
      · exact absurd h1 h0
      · rw [memF, lookupF, if_neg h0]
        exact ih k v h

/-- With distinct keys, lookup returns the member value. -/
theorem lookupF_of_fieldMem : ∀ (fs : Fields) (k : String) (v : Value),
    nodupKeysF fs = true → fieldMem fs k v → lookupF fs k = some v := by
  intro fs
  induction fs with
  | nil => intro k v _ h; exact absurd h id
  | cons k0 v0 t ih =>
    intro k v hnd h
    have hnd2 : (¬(memF t k0 = true)) ∧ nodupKeysF t = true := by
      simpa [nodupKeysF] using hnd
    rcases h with ⟨h1, h2⟩ | h
    · subst h1; subst h2
      simp [lookupF]
    · by_cases h0 : k0 = k
      · subst h0
        exact absurd (memF_of_fieldMem t k0 v h) hnd2.1
      · rw [lookupF, if_neg h0]
        exact ih k v hnd2.2 h

/-- Entries of a structural description are renames or nested rules. -/
theorem lookupDescr_structOnly : ∀ (d : Descr) (attr : String) (e : DEntry),
    structOnly d = true → lookupDescr d attr = some e →
    (∃ tgt, e = .rename tgt) ∨
      ∃ md, e = .rule md ∧ (md.type = .map ∨ md.type = .mapArray) := by
  intro d
  induction d with
  | nil => intro attr e _ h; exact absurd h (by simp [lookupDescr])
  | cons k0 e0 t ih =>
    intro attr e hso h
    by_cases h1 : k0 = attr
    · rw [show lookupDescr (.cons k0 e0 t) attr = some e0 by
        simp [lookupDescr, h1]] at h
      have he := Option.some.inj h
      subst he
      cases e0 with
      | rename tgt => exact Or.inl ⟨tgt, rfl⟩
      | rule md =>
        have h2 : (md.type = .map ∨ md.type = .mapArray) ∧ structOnly t = true := by
          simpa [structOnly] using hso
        exact Or.inr ⟨md, rfl, h2.1⟩
      | other r => exact absurd hso (by simp [structOnly])
    · have hso2 : structOnly t = true := by
        cases e0 with
        | rename tgt => simpa [structOnly] using hso
        | rule md =>
          have h2 : (md.type = .map ∨ md.type = .mapArray) ∧ structOnly t = true := by
            simpa [structOnly] using hso
          exact h2.2
        | other r => exact absurd hso (by simp [structOnly])
      exact ih attr e hso2 (by simpa [lookupDescr, h1] using h)

/-- Structural descriptions contain no modify and no insert rules. -/
theorem structOnly_noModifyInsert : ∀ d : Descr,
    structOnly d = true → noModifyInsert d = true := by
  intro d
  induction d with
  | nil => intro h; rfl
  | cons k0 e0 t ih =>
    intro h
    cases e0 with
    | rename tgt => simpa [structOnly, noModifyInsert] using ih (by simpa [structOnly] using h)
    | other r => exact absurd h (by simp [structOnly])
    | rule md =>
      have h2 : (md.type = .map ∨ md.type = .mapArray) ∧ structOnly t = true := by
        simpa [structOnly] using h
      have hm : ¬(md.type = .modify) := by
        rcases h2.1 with h3 | h3 <;> rw [h3] <;> intro hh <;> exact
          TranslationType.noConfusion hh
      have hi : ¬(md.type = .insert) := by
        rcases h2.1 with h3 | h3 <;> rw [h3] <;> intro hh <;> exact
          TranslationType.noConfusion hh
      simp [noModifyInsert, hm, hi, ih h2.2]

/-- The output of the nested-array element loop is a list of records. -/
theorem allRecords_translateArrayVals : ∀ (vs : VList) (sub : Option Descr)
    (out : VList), translateArrayVals vs sub = .ok out →
    allRecords out = true := by
  intro vs
  induction vs with
  | nil =>
    intro sub out h
    have : VList.nil = out := by simpa [translateArrayVals] using h
    rw [← this]
    rfl
  | cons v t ih =>
    intro sub out h
    cases v with
    | record r =>
      rw [translateArrayVals_cons_record] at h
      cases htr : translate r sub with
      | error p => rw [htr] at h; exact absurd h (by simp)
      | ok tr =>
        rw [htr] at h
        cases hts : translateArrayVals t sub with
        | error e => rw [hts] at h; exact absurd h (by simp)
        | ok ts =>
          rw [hts] at h
          rw [← Except.ok.inj h]
          simpa [allRecords] using ih sub ts hts
    | null => exact absurd h (by simp [translateArrayVals])
    | bool b => exact absurd h (by simp [translateArrayVals])
    | int n => exact absurd h (by simp [translateArrayVals])
    | str s => exact absurd h (by simp [translateArrayVals])
    | array vs2 => exact absurd h (by simp [translateArrayVals])

/-- A found entry's written key is among the description's targets. -/
theorem memTarget_of_lookup : ∀ (d : Descr) (k : String) (e : DEntry),
    lookupDescr d k = some e → memTarget d (targetKey k e) = true := by
  intro d
  induction d with
  | nil => intro k e h; exact absurd h (by simp [lookupDescr])
  | cons k0 e0 t ih =>
    intro k e h
    by_cases h1 : k0 = k
    · rw [show lookupDescr (.cons k0 e0 t) k = some e0 by
        simp [lookupDescr, h1]] at h
      have he := Option.some.inj h
      subst he
      subst h1
      simp [memTarget]
    · have := ih k e (by simpa [lookupDescr, h1] using h)
      simp [memTarget, this]

/-- With distinct written targets, the swapped description finds the
swapped entry under the original entry's written key. -/
theorem lookupDescr_swapDescr : ∀ (d : Descr) (k : String) (e : DEntry),
    nodupTargets d = true → lookupDescr d k = some e →
    lookupDescr (swapDescr d) (targetKey k e) = some (swapE k e) := by
  intro d
  induction d with
  | nil => intro k e _ h; exact absurd h (by simp [lookupDescr])
  | cons k0 e0 t ih =>
    intro k e hnd h
    have hnd2 : (¬(memTarget t (targetKey k0 e0) = true)) ∧ nodupTargets t = true := by
      simpa [nodupTargets] using hnd
    by_cases h1 : k0 = k
    · rw [show lookupDescr (.cons k0 e0 t) k = some e0 by
        simp [lookupDescr, h1]] at h
      have he := Option.some.inj h
      subst he
      subst h1
      cases e0 with
      | rename tgt => simp [swapDescr, targetKey, swapE, lookupDescr]
      | rule md => simp [swapDescr, targetKey, swapE, lookupDescr]
      | other r => simp [swapDescr, targetKey, swapE, lookupDescr]
    · have hlt : lookupDescr t k = some e := by simpa [lookupDescr, h1] using h
      have hmem := memTarget_of_lookup t k e hlt
      have hne : targetKey k0 e0 ≠ targetKey k e := by
        intro hh
        rw [hh] at hnd2
        exact hnd2.1 hmem
      have hrec := ih k e hnd2.2 hlt
      cases e0 with
      | rename tgt =>
        rw [show swapDescr (.cons k0 (.rename tgt) t)
            = .cons tgt (.rename k0) (swapDescr t) from rfl]
        rw [lookupDescr, if_neg (by simpa [targetKey] using hne)]
        exact hrec
      | rule md =>
        rw [show swapDescr (.cons k0 (.rule md) t)
            = .cons (resolveTarget md k0) (.rule (swapRule k0 md)) (swapDescr t)
            from rfl]
        rw [lookupDescr, if_neg (by simpa [targetKey] using hne)]
        exact hrec
      | other r =>
        rw [show swapDescr (.cons k0 (.other r) t)
            = .cons k0 (.other r) (swapDescr t) from rfl]
        rw [lookupDescr, if_neg (by simpa [targetKey] using hne)]
        exact hrec

/-- Every member field of a well-formed record satisfies its per-field
condition. -/
theorem fieldCondRT_of_wf : ∀ (fs : Fields) (d : Descr) (k : String)
    (v : Value), wfFieldsRT d fs = true → fieldMem fs k v →
    fieldCondRT d k v = true := by
  intro fs
  induction fs with
  | nil => intro d k v _ h; exact absurd h id
  | cons k0 v0 t ih =>
    intro d k v hwf h
    have hwf2 : fieldCondRT d k0 v0 = true ∧ wfFieldsRT d t = true := by
      simpa [wfFieldsRT] using hwf
    rcases h with ⟨h1, h2⟩ | h
    · subst h1; subst h2
      exact hwf2.1
    · exact ih d k v hwf2.2 h

/-- Every element of a well-formed nested array is a record meeting the
recursion conditions. -/
theorem wfArrRT_elem : ∀ (vs : VList) (sub : Option Descr) (i : Nat)
    (v : Value), wfArrRT sub vs = true → vnth vs i = some v →
    ∃ r, v = .record r ∧ recCondRT sub r = true := by
  intro vs
  induction vs with
  | nil => intro sub i v _ h; exact absurd h (by simp [vnth])
  | cons v0 t ih =>
    intro sub i v hwf h
    cases v0 with
    | record r =>
      have hwf2 : recCondRT sub r = true ∧ wfArrRT sub t = true := by
        cases sub with
        | none => simpa [wfArrRT, recCondRT] using hwf
        | some sd => simpa [wfArrRT, recCondRT] using hwf
      cases i with
      | zero =>
        have : Value.record r = v := Option.some.inj (by simpa [vnth] using h)
        exact ⟨r, this.symm, hwf2.1⟩
      | succ j => exact ih sub j v hwf2.2 (by simpa [vnth] using h)
    | null => exact absurd hwf (by simp [wfArrRT])
    | bool b => exact absurd hwf (by simp [wfArrRT])
    | int n => exact absurd hwf (by simp [wfArrRT])
    | str s => exact absurd hwf (by simp [wfArrRT])
    | array vs2 => exact absurd hwf (by simp [wfArrRT])

/-- How one source field with a rename, nested or nested-array entry
produces one result field during phase 2. -/
def writesTV (d : Descr) (k : String) (sv : Value) (t : String) (v : Value) : Prop :=
  (∃ tgt s, lookupDescr d k = some (.rename tgt) ∧ t = tgt ∧
    sv = .str s ∧ v = .str (goTrim s)) ∨
  (∃ md m tr, lookupDescr d k = some (.rule md) ∧ md.type = .map ∧
    t = resolveTarget md k ∧ sv = .record m ∧
    translate m md.subTranslation = .ok tr ∧ v = .record tr) ∨
  (∃ md vs out, lookupDescr d k = some (.rule md) ∧ md.type = .mapArray ∧
    t = resolveTarget md k ∧ sv = .array vs ∧ allRecords vs = true ∧
    translateArrayVals vs md.subTranslation = .ok out ∧ v = .array out)

/-- Provenance of the fields of a successful phase-2 run over a
structural description: every result field comes from the accumulator
or from translating one source field according to its entry. -/
theorem translateFields_provenance : ∀ (d : Descr), structOnly d = true →
    ∀ (fields whole acc res : Fields),
    translateFields whole d fields acc = .ok res →
    ∀ t v, fieldMem res t v →
      fieldMem acc t v ∨ ∃ k sv, fieldMem fields k sv ∧ writesTV d k sv t v := by
  intro d hso fields
  induction fields with
  | nil =>
    intro whole acc res h t v hm
    have : acc = res := by simpa [translateFields] using h
    exact Or.inl (this ▸ hm)
  | cons k0 v0 rest ih =>
    intro whole acc res h t v hm
    cases hl : lookupDescr d k0 with
    | none =>
      rcases ih whole acc res (by simpa [translateFields, hl] using h) t v hm with
        hL | ⟨k, sv, hmem, hw⟩
      · exact Or.inl hL
      · exact Or.inr ⟨k, sv, Or.inr hmem, hw⟩
    | some entry =>
      rcases lookupDescr_structOnly d k0 entry hso hl with ⟨tgt, he⟩ | ⟨md, he, hty2⟩
      · subst he
        cases hs : StringMap v0 with
        | error e => exact absurd h (by simp [translateFields, hl, hs])
        | ok v2 =>
          obtain ⟨s, hs1, hs2⟩ := StringMap_ok v0 v2 hs
          rcases ih whole (setF acc tgt v2) res
            (by simpa [translateFields, hl, hs] using h) t v hm with
            hL | ⟨k, sv, hmem, hw⟩
          · rcases fieldMem_setF acc tgt v2 t v hL with ⟨h1, h2⟩ | h2
            · refine Or.inr ⟨k0, v0, Or.inl ⟨rfl, rfl⟩, Or.inl ⟨tgt, s, hl, h1, hs1, ?_⟩⟩
              rw [h2, hs2]
            · exact Or.inl h2
          · exact Or.inr ⟨k, sv, Or.inr hmem, hw⟩
      · subst he
        rcases hty2 with hty | hty
        · cases v0 with
          | record m =>
            cases hsub : md.subTranslation with
            | none =>
              rcases ih whole (setF acc (resolveTarget md k0) (.record m)) res
                (by simpa [translateFields, hl, hty, hsub, resolveTarget] using h)
                t v hm with hL | ⟨k, sv, hmem, hw⟩
              · rcases fieldMem_setF acc _ _ t v hL with ⟨h1, h2⟩ | h2
                · refine Or.inr ⟨k0, .record m, Or.inl ⟨rfl, rfl⟩,
                    Or.inr (Or.inl ⟨md, m, m, hl, hty, h1, rfl, ?_, h2⟩)⟩
                  rw [hsub]
                  rfl
                · exact Or.inl h2
              · exact Or.inr ⟨k, sv, Or.inr hmem, hw⟩
            | some sd =>
              cases hmc : mandatoryCheck m sd with
              | some e => exact absurd h (by simp [translateFields, hl, hty, hsub, hmc])
              | none =>
                cases htf : translateFields m sd m .nil with
                | error p =>
                  exact absurd h (by simp [translateFields, hl, hty, hsub, hmc, htf])
                | ok r2 =>
                  cases hip : insertPhase m sd r2 with
                  | error p =>
                    exact absurd h
                      (by simp [translateFields, hl, hty, hsub, hmc, htf, hip])
                  | ok tr =>
                    have htr : translate m md.subTranslation = .ok tr := by
                      rw [hsub]
                      simp [translate, hmc, htf, hip]
                    rcases ih whole (setF acc (resolveTarget md k0) (.record tr)) res
                      (by simpa [translateFields, hl, hty, hsub, hmc, htf, hip,
                        resolveTarget] using h) t v hm with hL | ⟨k, sv, hmem, hw⟩
                    · rcases fieldMem_setF acc _ _ t v hL with ⟨h1, h2⟩ | h2
                      · exact Or.inr ⟨k0, .record m, Or.inl ⟨rfl, rfl⟩,
                          Or.inr (Or.inl ⟨md, m, tr, hl, hty, h1, rfl, htr, h2⟩)⟩
                      · exact Or.inl h2
                    · exact Or.inr ⟨k, sv, Or.inr hmem, hw⟩
          | null => exact absurd h (by simp [translateFields, hl, hty])
          | bool b => exact absurd h (by simp [translateFields, hl, hty])
          | int n => exact absurd h (by simp [translateFields, hl, hty])
          | str s => exact absurd h (by simp [translateFields, hl, hty])
          | array vs => exact absurd h (by simp [translateFields, hl, hty])
        · cases v0 with
          | array vs =>
            by_cases hall : allRecords vs = true
            · cases hav : translateArrayVals vs md.subTranslation with
              | error e =>
                exact absurd h (by simp [translateFields, hl, hty, hall, hav])
              | ok out =>
                rcases ih whole (setF acc (resolveTarget md k0) (.array out)) res
                  (by simpa [translateFields, hl, hty, hall, hav, resolveTarget]
                    using h) t v hm with hL | ⟨k, sv, hmem, hw⟩
                · rcases fieldMem_setF acc _ _ t v hL with ⟨h1, h2⟩ | h2
                  · exact Or.inr ⟨k0, .array vs, Or.inl ⟨rfl, rfl⟩,
                      Or.inr (Or.inr ⟨md, vs, out, hl, hty, h1, rfl, hall, hav, h2⟩)⟩
                  · exact Or.inl h2
                · exact Or.inr ⟨k, sv, Or.inr hmem, hw⟩
            · exact absurd h (by simp [translateFields, hl, hty, hall])
          | null => exact absurd h (by simp [translateFields, hl, hty])
          | bool b => exact absurd h (by simp [translateFields, hl, hty])
          | int n => exact absurd h (by simp [translateFields, hl, hty])
          | str s => exact absurd h (by simp [translateFields, hl, hty])
          | record fs => exact absurd h (by simp [translateFields, hl, hty])

/-- Swapping preserves the rule kind. -/
theorem swapRule_type_eq (k : String) (md : Description) :
    (swapRule k md).type = md.type := by
  cases md with
  | mk inf mnd mf modf sub tn ty => rfl

/-- Swapping makes the old source key the target name. -/
theorem swapRule_targetName_eq (k : String) (md : Description) :
    (swapRule k md).targetName = k := by
  cases md with
  | mk inf mnd mf modf sub tn ty => rfl

/-- Swapping swaps the sub-description. -/
theorem swapRule_subTranslation_eq (k : String) (md : Description) :
    (swapRule k md).subTranslation = swapOD md.subTranslation := by
  cases md with
  | mk inf mnd mf modf sub tn ty =>
    cases sub with
    | none => rfl
    | some sd => rfl

/-- Round trip between the engine and the verifier, in the direction
the repository's tests exercise: a successful structural translation is
accepted by `isSimilarFields` when run on the result against the source
with the swapped description.  Strong induction on the size of the
source record. -/
theorem roundtrip_aux : ∀ (N : Nat) (src : Fields) (d : Descr) (result : Fields),
    sizeF src < N →
    nodupKeysF src = true → nodupTargets d = true → structOnly d = true →
    wfFieldsRT d src = true →
    translate src (some d) = .ok result →
    isSimilarFields result src (some (swapDescr d)) = (true, none) := by
  intro N
  induction N with
  | zero => intro src d result hsz; omega
  | succ N0 ihN =>
    intro src d result hsz hkeys htgt hso hwf htr
    have hnmi := structOnly_noModifyInsert d hso
    cases hmc : mandatoryCheck src d with
    | some e => simp [translate, hmc] at htr
    | none =>
      cases htf : translateFields src d src .nil with
      | error p => simp [translate, hmc, htf] at htr
      | ok R =>
        have hinsert : insertPhase src d R = .ok result := by
          have h2 : translate src (some d) = insertPhase src d R := by
            simp [translate, hmc, htf]
          rw [← h2]
          exact htr
        have hres : result = R := insertPhase_noInsert_ok d src R result hnmi hinsert
        subst hres
        have main : ∀ fs : Fields,
            (∀ t v, fieldMem fs t v → fieldMem result t v) →
            isSimilarFields fs src (some (swapDescr d)) = (true, none) := by
          intro fs
          induction fs with
          | nil => intro _; rfl
          | cons t v fsRest ihf =>
            intro hsub
            have hmemR : fieldMem result t v := hsub t v (Or.inl ⟨rfl, rfl⟩)
            have hrest : ∀ t' v', fieldMem fsRest t' v' → fieldMem result t' v' :=
              fun t' v' hm => hsub t' v' (Or.inr hm)
            rcases translateFields_provenance d hso src src .nil result htf t v hmemR
              with hL | ⟨k, sv, hmem, hw⟩
            · exact absurd hL id
            · have hlookSrc : lookupF src k = some sv :=
                lookupF_of_fieldMem src k sv hkeys hmem
              have hcond := fieldCondRT_of_wf src d k sv hwf hmem
              rcases hw with ⟨tgt, s, hl, ht, hsv, hv⟩ |
                ⟨md, m, tr, hl, hty, ht, hsv, htrm, hv⟩ |
                ⟨md, vs, out, hl, hty, ht, hsv, hall, hav, hv⟩
              · subst ht; subst hsv; subst hv
                have hsw := lookupDescr_swapDescr d k (.rename t) htgt hl
                rw [show targetKey k (.rename t) = t from rfl,
                  show swapE k (.rename t) = .rename k from rfl] at hsw
                have htrim : goTrim s = s := by
                  simpa [fieldCondRT, hl] using hcond
                rw [show isSimilarFields (.cons t (.str (goTrim s)) fsRest) src
                    (some (swapDescr d))
                    = isSimilarFields fsRest src (some (swapDescr d)) from by
                  simp [isSimilarFields, lookupD, hsw, htrim, hlookSrc]]
                exact ihf hrest
              · subst ht; subst hsv; subst hv
                have hsw := lookupDescr_swapDescr d k (.rule md) htgt hl
                rw [show targetKey k (.rule md) = resolveTarget md k from rfl,
                  show swapE k (.rule md) = .rule (swapRule k md) from rfl] at hsw
                have hszm : sizeF m < N0 := by
                  have h1 := sizeV_lt_of_fieldMem src k (.record m) hmem
                  have h2 : sizeV (.record m) = sizeF m + 1 := rfl
                  omega
                have hrec : isSimilarFields tr m
                    ((swapRule k md).subTranslation) = (true, none) := by
                  cases md with
                  | mk inf mnd mf modf sub0 tn ty =>
                    cases sub0 with
                    | none =>
                      have htr2 : m = tr := by
                        simpa [translate, Description.subTranslation] using htrm
                      rw [show (swapRule k (.mk inf mnd mf modf none tn ty)).subTranslation
                          = none from rfl]
                      rw [← htr2]
                      exact isSimilarFields_none m m
                    | some sd =>
                      have hty2 : ty = TranslationType.map := by
                        simpa [Description.type] using hty
                      have hconds : nodupKeysF m = true ∧ nodupTargets sd = true ∧
                          structOnly sd = true ∧ wfFieldsRT sd m = true := by
                        simpa [fieldCondRT, hl, hty2, Description.subTranslation,
                          Description.type, and_assoc] using hcond
                      rw [show (swapRule k (.mk inf mnd mf modf (some sd) tn ty)).subTranslation
                          = some (swapDescr sd) from rfl]
                      exact ihN m sd tr hszm hconds.1 hconds.2.1 hconds.2.2.1
                        hconds.2.2.2 (by simpa [Description.subTranslation] using htrm)
                rw [show isSimilarFields (.cons (resolveTarget md k) (.record tr) fsRest)
                    src (some (swapDescr d))
                    = isSimilarFields fsRest src (some (swapDescr d)) from by
                  simp [isSimilarFields, lookupD, hsw, hty, hlookSrc, hrec,
                    swapRule_type_eq, swapRule_targetName_eq]]
                exact ihf hrest
              · subst ht; subst hsv; subst hv
                have hsw := lookupDescr_swapDescr d k (.rule md) htgt hl
                rw [show targetKey k (.rule md) = resolveTarget md k from rfl,
                  show swapE k (.rule md) = .rule (swapRule k md) from rfl] at hsw
                have hallout := allRecords_translateArrayVals vs md.subTranslation out hav
                have hlen := (translateArrayVals_ok vs md.subTranslation out hav).1
                have hwfarr : wfArrRT md.subTranslation vs = true := by
                  have : allRecords vs = true ∧ wfArrRT md.subTranslation vs = true := by
                    simpa [fieldCondRT, hl, hty] using hcond
                  exact this.2
                have hszvs : sizeVL vs + 1 < N0 + 1 := by
                  have h1 := sizeV_lt_of_fieldMem src k (.array vs) hmem
                  have h2 : sizeV (.array vs) = sizeVL vs + 1 := rfl
                  omega
                have harr : ∀ (vsS outS : VList), sizeVL vsS ≤ sizeVL vs →
                    translateArrayVals vsS md.subTranslation = .ok outS →
                    wfArrRT md.subTranslation vsS = true →
                    isSimilarArr outS vsS (swapOD md.subTranslation) = (true, none) := by
                  intro vsS
                  induction vsS with
                  | nil =>
                    intro outS _ hok _
                    have : VList.nil = outS := by simpa [translateArrayVals] using hok
                    rw [← this]
                    rfl
                  | cons v0 t0 iha =>
                    intro outS hszS hok hwfS
                    cases v0 with
                    | record r =>
                      rw [translateArrayVals_cons_record] at hok
                      cases htr0 : translate r md.subTranslation with
                      | error p => rw [htr0] at hok; exact absurd hok (by simp)
                      | ok tr0 =>
                        rw [htr0] at hok
                        cases hts0 : translateArrayVals t0 md.subTranslation with
                        | error e2 => rw [hts0] at hok; exact absurd hok (by simp)
                        | ok ts0 =>
                          rw [hts0] at hok
                          rw [← Except.ok.inj hok]
                          have hwf2 : recCondRT md.subTranslation r = true ∧
                              wfArrRT md.subTranslation t0 = true := by
                            cases hsub0 : md.subTranslation with
                            | none => simpa [wfArrRT, recCondRT, hsub0] using hwfS
                            | some sd => simpa [wfArrRT, recCondRT, hsub0] using hwfS
                          have hszr : sizeF r < N0 := by
                            have h3 : sizeVL (.cons (.record r) t0)
                                = sizeV (.record r) + sizeVL t0 + 1 := rfl
                            have h4 : sizeV (.record r) = sizeF r + 1 := rfl
                            omega
                          have hrec0 : isSimilarFields tr0 r (swapOD md.subTranslation)
                              = (true, none) := by
                            cases hsub0 : md.subTranslation with
                            | none =>
                              have : r = tr0 := by
                                rw [hsub0] at htr0
                                simpa [translate] using htr0
                              rw [← this, swapOD]
                              exact isSimilarFields_none r r
                            | some sd =>
                              have hc2 : recCondRT (some sd) r = true := hsub0 ▸ hwf2.1
                              have hc3 : nodupKeysF r = true ∧ nodupTargets sd = true ∧
                                  structOnly sd = true ∧ wfFieldsRT sd r = true := by
                                simpa [recCondRT, and_assoc] using hc2
                              rw [swapOD]
                              exact ihN r sd tr0 hszr hc3.1 hc3.2.1 hc3.2.2.1
                                hc3.2.2.2 (hsub0 ▸ htr0)
                          rw [show isSimilarArr (.cons (.record tr0) ts0)
                              (.cons (.record r) t0) (swapOD md.subTranslation)
                              = isSimilarArr ts0 t0 (swapOD md.subTranslation) from by
                            simp [isSimilarArr, hrec0]]
                          refine iha ts0 ?_ hts0 hwf2.2
                          have h3 : sizeVL (.cons (.record r) t0)
                              = sizeV (.record r) + sizeVL t0 + 1 := rfl
                          omega
                    | null => exact absurd hwfS (by simp [wfArrRT])
                    | bool b => exact absurd hwfS (by simp [wfArrRT])
                    | int n => exact absurd hwfS (by simp [wfArrRT])
                    | str s => exact absurd hwfS (by simp [wfArrRT])
                    | array vs2 => exact absurd hwfS (by simp [wfArrRT])
                have harrfin := harr vs out (Nat.le_refl _) hav hwfarr
                rw [show isSimilarFields (.cons (resolveTarget md k) (.array out) fsRest)
                    src (some (swapDescr d))
                    = isSimilarFields fsRest src (some (swapDescr d)) from by
                  simp [isSimilarFields, lookupD, hsw, hty, hlookSrc, hallout, hall,
                    hlen, harrfin, swapRule_type_eq, swapRule_targetName_eq,
                    swapRule_subTranslation_eq]]
                exact ihf hrest
        exact main result (fun t v h => h)

/-- Counterexample to C5 as stated: with rename-only descriptor
{A -> B, B -> b} and source {A: x, B: y}, the translation succeeds,
but `isSimilar(source, result, d')` with the swapped descriptor
returns false with an error: walking the SOURCE keys, the key "B" hits
the swapped entry `B -> A` and looks for "A" in the result, which does
not exist. -/
theorem roundtrip_counterexample :
    translate (.cons "A" (.str "x") (.cons "B" (.str "y") .nil))
        (some (.cons "A" (.rename "B") (.cons "B" (.rename "b") .nil)))
      = .ok (.cons "B" (.str "x") (.cons "b" (.str "y") .nil)) ∧
    IsSimilar (.cons "A" (.str "x") (.cons "B" (.str "y") .nil))
        (.cons "B" (.str "x") (.cons "b" (.str "y") .nil))
        (some (swapDescr (.cons "A" (.rename "B") (.cons "B" (.rename "b") .nil))))
      = (false, some (.internal "Missing value for A")) :=
  ⟨rfl, rfl⟩

/-- C5 amended: the round trip holds with the arguments flipped, as the
repository's own tests exercise it: for a structural descriptor (rename,
`Nested` and `NestedArray` entries only) with pairwise distinct written
targets, a source with distinct keys whose rename values carry no
surrounding whitespace (recursively), a successful
`Translate(source, d) = result` is accepted by
`IsSimilar(result, source, swap d)` with no error. -/
theorem roundtrip_swapped (src : Fields) (d : Descr) (result : Fields)
    (hkeys : nodupKeysF src = true) (htgt : nodupTargets d = true)
    (hso : structOnly d = true) (hwf : wfFieldsRT d src = true)
    (htr : Translate src (some d) = (some result, none)) :
    IsSimilar result src (some (swapDescr d)) = (true, none) := by
  have htr2 : translate src (some d) = .ok result := by
    cases h : translate src (some d) with
    | ok r =>
      have hr : r = result := by
        rw [show Translate src (some d) = (some r, none) by
          simp [Translate, h]] at htr
        simpa using congrArg Prod.fst htr
      rw [← hr]
      try exact h
    | error p =>
      rw [show Translate src (some d) = (p.1, some p.2) by simp [Translate, h]] at htr
      exact absurd (congrArg Prod.snd htr) (by simp)
  exact roundtrip_aux (sizeF src + 1) src d result (Nat.lt_succ_self _)
    hkeys htgt hso hwf htr2

/-- Witness for C5 amended at the nested test scenario. -/
theorem roundtrip_swapped_witness :
    IsSimilar
        (.cons "e1" (.record (.cons "e11" (.str "x")
          (.cons "e12" (.str "y") .nil))) .nil)
        (.cons "E1" (.record (.cons "E11" (.str "x")
          (.cons "E12" (.str "y") .nil))) .nil)
        (some (swapDescr (.cons "E1" (.rule (.mk none false none none
          (some (.cons "E11" (.rename "e11") (.cons "E12" (.rename "e12") .nil)))
          "e1" .map)) .nil)))
      = (true, none) :=
  roundtrip_swapped
    (.cons "E1" (.record (.cons "E11" (.str "x")
      (.cons "E12" (.str "y") .nil))) .nil)
    (.cons "E1" (.rule (.mk none false none none
      (some (.cons "E11" (.rename "e11") (.cons "E12" (.rename "e12") .nil)))
      "e1" .map)) .nil)
    (.cons "e1" (.record (.cons "e11" (.str "x")
      (.cons "e12" (.str "y") .nil))) .nil)
    rfl rfl rfl rfl rfl

end Maptrans
